import Mathlib

set_option maxRecDepth 1000000

/-!
Verification development for the `digital-elevation-model` repository.

The repository ingests a large raster image into fixed-size chunks, storing
each pixel's elevation fraction as a half-precision (binary16) bit pattern,
and samples a chunk either at integer pixels (`get_elevation`) or bilinearly
at unit-square coordinates (`sample_elevation_uv`).

All Rust `f32`/`f16` arithmetic is modelled exactly over `ℚ`: every finite
IEEE-754 value is a rational, and each primitive operation rounds its exact
rational result to the destination format with round-to-nearest, ties to
even.  `u32` arithmetic is modelled on `ℕ` with explicit wrap-around
(`% 2^32`, the release-build semantics); a Rust panic (failed `assert_eq!`,
out-of-bounds index, division by zero) is modelled as `Option.none`.
-/

/-- Fuel-driven base-two logarithm on `ℕ` (structural recursion, so that the
kernel can evaluate it inside `decide`).  `log2Fuel fuel n = ⌊log₂ n⌋`
whenever `n ≤ fuel` and `0 < n`. -/
def log2Fuel : ℕ → ℕ → ℕ
  | 0, _ => 0
  | fuel + 1, n => if n < 2 then 0 else log2Fuel fuel (n / 2) + 1

/-- Base-two logarithm, `nlog2 n = ⌊log₂ n⌋` for `0 < n`. -/
def nlog2 (n : ℕ) : ℕ := log2Fuel n n

/-- `2 ^ z` as a rational, computed with `Nat` exponentiation so that the
kernel can evaluate it. -/
def qpow2 (z : ℤ) : ℚ :=
  match z with
  | .ofNat n => ((2 ^ n : ℕ) : ℚ)
  | .negSucc n => 1 / ((2 ^ (n + 1) : ℕ) : ℚ)

/-- `⌊log₂ q⌋` for a positive rational `q` (junk on `q ≤ 0`). -/
def floorLog2 (q : ℚ) : ℤ :=
  let g : ℤ := (nlog2 q.num.toNat : ℤ) - (nlog2 q.den : ℤ)
  if qpow2 g ≤ q then g else g - 1

/-- Round a rational to the nearest integer, ties to even. -/
def rnEven (q : ℚ) : ℤ :=
  let f := ⌊q⌋
  let r := q - (f : ℚ)
  if r < 1 / 2 then f
  else if 1 / 2 < r then f + 1
  else if f % 2 = 0 then f else f + 1

/-- Round an exact rational to a binary floating-point format with `prec`
bits of precision and minimal quantum exponent `emin` (round to nearest,
ties to even).  `binary32` is `prec = 24, emin = -149`; `binary16` is
`prec = 11, emin = -24`.  Overflow to infinity is not modelled; all values
handled by this development are far below the overflow thresholds. -/
def roundFP (prec : ℕ) (emin : ℤ) (q : ℚ) : ℚ :=
  if q = 0 then 0
  else
    let m := |q|
    let qe := max (floorLog2 m - ((prec : ℤ) - 1)) emin
    let n := rnEven (m / qpow2 qe)
    (if q < 0 then -1 else 1) * (n : ℚ) * qpow2 qe

/-- Round an exact rational to the nearest `f32` value. -/
def round32 (q : ℚ) : ℚ := roundFP 24 (-149) q

/-- Round an exact rational to the nearest `f16` value (the conversion
performed by `half::f16::from_f32`). -/
def round16 (q : ℚ) : ℚ := roundFP 11 (-24) q

/-- A rational is (finite-)representable as an `f32` iff rounding fixes it. -/
def Rep32 (q : ℚ) : Prop := round32 q = q

instance (q : ℚ) : Decidable (Rep32 q) := by unfold Rep32; infer_instance

/-- Exact product of two `f32` values (`a * b` in Rust). -/
def f32mul (a b : ℚ) : ℚ := round32 (a * b)

/-- Exact sum of two `f32` values (`a + b` in Rust). -/
def f32add (a b : ℚ) : ℚ := round32 (a + b)

/-- Exact difference of two `f32` values (`a - b` in Rust). -/
def f32sub (a b : ℚ) : ℚ := round32 (a - b)

/-- Exact quotient of two `f32` values (`a / b` in Rust); only ever applied
with `b ≠ 0` in this development. -/
def f32div (a b : ℚ) : ℚ := round32 (a / b)

/-- `u32` to `f32` conversion (`n as f32` in Rust). -/
def natToF32 (n : ℕ) : ℚ := round32 (n : ℚ)

/-- The exponent field of an `f16` bit pattern. -/
def f16Exp (b : ℕ) : ℕ := b / 1024 % 32

/-- An `f16` bit pattern encodes a finite value (exponent field ≠ 31). -/
def f16Finite (b : ℕ) : Prop := f16Exp b ≠ 31

instance (b : ℕ) : Decidable (f16Finite b) := by unfold f16Finite; infer_instance

/-- Decode an `f16` bit pattern to its exact value
(`f16::from_bits(b).to_f32()`, which is exact since every finite `f16`
value is an `f32` value).  Infinity/NaN patterns (exponent field 31) are
outside the model and decode to the junk value `0`. -/
def f16ToQ (b : ℕ) : ℚ :=
  let s : ℚ := if b / 32768 % 2 = 1 then -1 else 1
  let E := f16Exp b
  let F := b % 1024
  if E = 0 then s * (F : ℚ) * qpow2 (-24)
  else if E = 31 then 0
  else s * ((1024 + F : ℕ) : ℚ) * qpow2 ((E : ℤ) - 25)

/-- Encode a nonnegative finite `f16` value as its bit pattern
(`f16::to_bits`); junk on inputs that are not exact `f16` values.  Negative
inputs never occur in this development (elevations are nonnegative). -/
def f16BitsOfQ (q : ℚ) : ℕ :=
  if q ≤ 0 then 0
  else
    let e := floorLog2 q
    if e < -14 then ⌊q * qpow2 24⌋.toNat
    else if e ≤ 15 then (e + 15).toNat * 1024 + (⌊q / qpow2 (e - 10)⌋ - 1024).toNat
    else 31744


/-! ## `u32` arithmetic

Wrapping (release-build) semantics: every operation is reduced `% 2^32`.
-/

/-- Wrapping `u32` addition. -/
def u32add (a b : ℕ) : ℕ := (a + b) % 4294967296

/-- Wrapping `u32` multiplication. -/
def u32mul (a b : ℕ) : ℕ := a * b % 4294967296

/-- Wrapping `u32` subtraction. -/
def u32sub (a b : ℕ) : ℕ := (a + 4294967296 - b) % 4294967296

/-- `u32::div_ceil` as implemented in the Rust standard library
(`d + 1` if the remainder is nonzero); never overflows. -/
def divCeil (a b : ℕ) : ℕ := if a % b > 0 then a / b + 1 else a / b

/-- Saturating `f32`-to-`u32` cast (`f as u32` in Rust): negative values
clamp to `0`, values above `u32::MAX` clamp to `u32::MAX`.  The argument is
the exact value of the (already floored) `f32`. -/
def f32ToU32 (q : ℚ) : ℕ := if q < 0 then 0 else min ⌊q⌋.toNat 4294967295

/-! ## Data model

Mirrors `DemProfile` and `Dem` from `digital-elevation-model/src/lib.rs`.
The `Range<u32>` fields are modelled as explicit start/end naturals, the
`Vec<u16>` grid as a list of bit patterns.
-/

/-- `DemProfile`: metadata of the full mosaic. -/
structure DemProfile where
  width : ℕ
  height : ℕ
  meters_per_pixel : ℚ
  max_elevation : ℚ
  deriving DecidableEq, Repr

/-- `Dem`: one chunk of the mosaic.  `dem` is the row-major grid of `f16`
bit patterns. -/
structure Dem where
  width_range_start : ℕ
  width_range_end : ℕ
  height_range_start : ℕ
  height_range_end : ℕ
  profile : DemProfile
  dem : List ℕ
  deriving DecidableEq, Repr

/-- `Dem::width`: `width_range.end - width_range.start`. -/
def Dem.width (d : Dem) : ℕ := u32sub d.width_range_end d.width_range_start

/-- `Dem::height`: `height_range.end - height_range.start`. -/
def Dem.height (d : Dem) : ℕ := u32sub d.height_range_end d.height_range_start

/-- `Dem::get_elevation`: reads `dem[y * width + x]`, decodes the `f16`
value and multiplies by `profile.max_elevation` in `f32`.  `none` models
the Rust panic on an out-of-bounds index. -/
def Dem.get_elevation (d : Dem) (x y : ℕ) : Option ℚ :=
  (d.dem.get? (u32add (u32mul y d.width) x)).map
    (fun b => f32mul (f16ToQ b) d.profile.max_elevation)

/-- `let fx = uv.x * (self.width() - 1) as f32`. -/
def Dem.fx (d : Dem) (u : ℚ) : ℚ := f32mul u (natToF32 (u32sub d.width 1))

/-- `let fy = uv.y * (self.height() - 1) as f32`. -/
def Dem.fy (d : Dem) (v : ℚ) : ℚ := f32mul v (natToF32 (u32sub d.height 1))

/-- `let x0 = fx.floor() as u32` (the saturating cast already floors). -/
def Dem.x0 (d : Dem) (u : ℚ) : ℕ := f32ToU32 (d.fx u)

/-- `let y0 = fy.floor() as u32`. -/
def Dem.y0 (d : Dem) (v : ℚ) : ℕ := f32ToU32 (d.fy v)

/-- `let x1 = (x0 + 1).min(self.width() - 1)`. -/
def Dem.x1 (d : Dem) (u : ℚ) : ℕ := min (u32add (d.x0 u) 1) (u32sub d.width 1)

/-- `let y1 = (y0 + 1).min(self.height() - 1)`. -/
def Dem.y1 (d : Dem) (v : ℚ) : ℕ := min (u32add (d.y0 v) 1) (u32sub d.height 1)

/-- `let tx = fx - x0 as f32`. -/
def Dem.tx (d : Dem) (u : ℚ) : ℚ := f32sub (d.fx u) (natToF32 (d.x0 u))

/-- `let ty = fy - y0 as f32`. -/
def Dem.ty (d : Dem) (v : ℚ) : ℚ := f32sub (d.fy v) (natToF32 (d.y0 v))

/-- The per-texel closure `i(x, y)`: reads `dem[y * width + x]` and decodes
the `f16` value (not yet meter-scaled).  `none` models the panic on an
out-of-bounds index. -/
def Dem.i (d : Dem) (x y : ℕ) : Option ℚ :=
  (d.dem.get? (u32add (u32mul y d.width) x)).map f16ToQ

/-- The bilinear blend and final meter scaling:
`top = v00*(1-tx) + v10*tx`, `bottom = v01*(1-tx) + v11*tx`,
`bilinear = top*(1-ty) + bottom*ty`, result `bilinear * max_elevation`,
with every operation rounded as `f32`. -/
def bilerp (tx ty v00 v10 v01 v11 max_el : ℚ) : ℚ :=
  f32mul
    (f32add
      (f32mul (f32add (f32mul v00 (f32sub 1 tx)) (f32mul v10 tx)) (f32sub 1 ty))
      (f32mul (f32add (f32mul v01 (f32sub 1 tx)) (f32mul v11 tx)) ty))
    max_el

/-- `Dem::sample_elevation_uv`: bilinear sampling at unit-square
coordinates, assembled from the helpers above exactly as in the source
(the four texels are read in source order; `none` models a Rust panic on
any of the four grid reads). -/
def Dem.sample_elevation_uv (d : Dem) (u v : ℚ) : Option ℚ :=
  (d.i (d.x0 u) (d.y0 v)).bind (fun v00 =>
    (d.i (d.x1 u) (d.y0 v)).bind (fun v10 =>
      (d.i (d.x0 u) (d.y1 v)).bind (fun v01 =>
        (d.i (d.x1 u) (d.y1 v)).map (fun v11 =>
          bilerp (d.tx u) (d.ty v) v00 v10 v01 v11 d.profile.max_elevation))))

/-! ## Ingestion (`Dem::load_chunks_from_image`)

The image decoding (`ImageReader::open(...).decode()?.to_rgb16()`) is an
external collaborator; the embedding starts from the decoded raster: its
dimensions plus the red channel (the only channel consulted) as a function
of pixel coordinates.
-/

/-- A decoded 16-bit-per-channel raster: dimensions and the red channel. -/
structure Image where
  width : ℕ
  height : ℕ
  pix : ℕ → ℕ → ℕ

/-- Quantization of one red-channel value, as performed during ingestion:
`f16::from_f32(r as f32 / u16::MAX as f32).to_bits()`. -/
def quantBits (r : ℕ) : ℕ :=
  f16BitsOfQ (round16 (f32div (natToF32 r) 65535))

/-- Start of the tile rectangle along one axis: `t * chunk` (`u32`). -/
def tile_start (t c : ℕ) : ℕ := u32mul t c

/-- End of the tile rectangle along one axis:
`((t + 1) * chunk).min(total)` (`u32`). -/
def tile_end (total t c : ℕ) : ℕ := min (u32mul (t + 1) c) total

/-- One loop iteration of the per-pixel ingestion loop: quantizes the pixel
and writes it into the owning chunk.  `none` models the Rust panics
(`chunks[chunk_idx]` out of bounds, `% 0`, `chunk.dem[dem_idx]` out of
bounds). -/
def writePixel (cw ch numx : ℕ) (pix : ℕ → ℕ → ℕ) (cs : List Dem)
    (p : ℕ × ℕ) : Option (List Dem) :=
  let x := p.1
  let y := p.2
  let elevation_u16 := quantBits (pix x y)
  let chunk_idx := u32add (u32mul (y / ch) numx) (x / cw)
  (cs.get? chunk_idx).bind (fun c =>
    if c.width = 0 ∨ c.height = 0 then none
    else
      let dem_idx := u32add (u32mul (y % c.height) c.width) (x % c.width)
      if dem_idx < c.dem.length then
        some (cs.set chunk_idx { c with dem := c.dem.set dem_idx elevation_u16 })
      else none)

/-- The raster's pixels in the order produced by `enumerate_pixels`
(row-major, `y` outer). -/
def pixelList (W H : ℕ) : List (ℕ × ℕ) :=
  (List.range H).flatMap (fun y => (List.range W).map (fun x => (x, y)))

/-- One freshly allocated chunk: zero-initialized and sized to its
(possibly partial) tile rectangle. -/
def mkChunk (W H cw ch : ℕ) (profile : DemProfile) (ty tx : ℕ) : Dem :=
  { width_range_start := tile_start tx cw,
    width_range_end := tile_end W tx cw,
    height_range_start := tile_start ty ch,
    height_range_end := tile_end H ty ch,
    profile := profile,
    dem := List.replicate
      (u32mul (u32sub (tile_end W tx cw) (tile_start tx cw))
        (u32sub (tile_end H ty ch) (tile_start ty ch))) 0 }

/-- The freshly allocated chunks, in row-major tile order (`ty` outer). -/
def initChunks (W H cw ch : ℕ) (profile : DemProfile) : List Dem :=
  (List.range (divCeil H ch)).flatMap (fun ty =>
    (List.range (divCeil W cw)).map (mkChunk W H cw ch profile ty))

/-- `Dem::load_chunks_from_image`, starting from the decoded raster.
`none` models a Rust panic: the failed `assert_eq!` on a dimension
mismatch, a division by a zero chunk dimension, or an out-of-bounds index
in the pixel loop.  (The `anyhow` error path of the Rust function is only
reachable from the external file-open/decode steps, which are outside the
embedding.) -/
def Dem.load_chunks_from_image (img : Image) (chunk_width chunk_height : ℕ)
    (profile : DemProfile) : Option (List Dem) :=
  if img.width = profile.width ∧ img.height = profile.height then
    if chunk_width = 0 ∨ chunk_height = 0 then none
    else
      let numx := divCeil img.width chunk_width
      let init := initChunks img.width img.height chunk_width chunk_height profile
      (pixelList img.width img.height).foldlM
        (writePixel chunk_width chunk_height numx img.pix) init
  else none

/-- Geometry of the `k`-th chunk (row-major tile order) as allocated by
ingestion, together with the size facts preserved throughout the pixel
loop. -/
def chunkGeom (W H cw ch numx : ℕ) (profile : DemProfile) (k : ℕ) (c : Dem) : Prop :=
  c.width_range_start = tile_start (k % numx) cw ∧
  c.width_range_end = tile_end W (k % numx) cw ∧
  c.height_range_start = tile_start (k / numx) ch ∧
  c.height_range_end = tile_end H (k / numx) ch ∧
  c.profile = profile ∧
  c.dem.length = c.width * c.height ∧
  0 < c.width ∧ 0 < c.height ∧ c.width * c.height < 4294967296

/-- Invariant of the chunk list throughout the per-pixel loop. -/
def chunksInv (W H cw ch : ℕ) (profile : DemProfile) (cs : List Dem) : Prop :=
  cs.length = divCeil H ch * divCeil W cw ∧
  ∀ k, k < divCeil H ch * divCeil W cw →
    ∃ c, cs.get? k = some c ∧ chunkGeom W H cw ch (divCeil W cw) profile k c

/-- Fixture for the C6 counterexample: a 14×2 chunk whose only nonzero
texel is `1.0` (bits `15360`) at pixel `(7, 0)`. -/
def cexDem6 : Dem :=
  { width_range_start := 0, width_range_end := 14, height_range_start := 0,
    height_range_end := 2,
    profile := { width := 14, height := 2, meters_per_pixel := 1, max_elevation := 1 },
    dem := [0, 0, 0, 0, 0, 0, 0, 15360, 0, 0, 0, 0, 0, 0,
            0, 0, 0, 0, 0, 0, 0, 0, 0, 0, 0, 0, 0, 0] }

/-- Fixture for the C7 counterexample: a `(2^24 + 4) × 1` chunk with an
all-zero grid. -/
def cexDem7 : Dem :=
  { width_range_start := 0, width_range_end := 16777220, height_range_start := 0,
    height_range_end := 1,
    profile :=
      { width := 16777220, height := 1, meters_per_pixel := 1, max_elevation := 1 },
    dem := List.replicate 16777220 0 }

/-- Fixture for the C10 witness: a 2×2 chunk with an all-zero grid. -/
def cexDem10 : Dem :=
  { width_range_start := 0, width_range_end := 2, height_range_start := 0,
    height_range_end := 2,
    profile := { width := 2, height := 2, meters_per_pixel := 1, max_elevation := 1 },
    dem := [0, 0, 0, 0] }

/-- Fixture for the C3 counterexample: a `(2^32 - 1) x 1` raster (only its
dimensions matter for the layout; every pixel reads 0). -/
def cexImg3 : Image := { width := 4294967295, height := 1, pix := fun _ _ => 0 }

/-- Profile matching `cexImg3`. -/
def cexProfile3 : DemProfile :=
  { width := 4294967295, height := 1, meters_per_pixel := 1, max_elevation := 1 }

/-! ## Sanity evaluations of the rounding model -/

example : nlog2 1 = 0 := by with_unfolding_all rfl
example : nlog2 7 = 2 := by with_unfolding_all rfl
example : qpow2 (-2) = 1 / 4 := by with_unfolding_all rfl
example : floorLog2 (7 / 2) = 1 := by with_unfolding_all rfl
example : rnEven (7 / 2) = 4 := by with_unfolding_all rfl
example : rnEven (5 / 2) = 2 := by with_unfolding_all rfl
example : round32 1 = 1 := by with_unfolding_all rfl
example : round32 (16777217 : ℚ) = 16777216 := by with_unfolding_all rfl
example : round32 (16777219 : ℚ) = 16777220 := by with_unfolding_all rfl
example : round16 (1 / 3) = 1365 / 4096 := by with_unfolding_all rfl
example : f16BitsOfQ 1 = 15360 := by with_unfolding_all rfl
example : f16BitsOfQ (1365 / 4096) = 13653 := by with_unfolding_all rfl
example : f16ToQ 13312 = 1 / 4 := by with_unfolding_all rfl
example : f16ToQ (f16BitsOfQ (round16 (1 / 3))) = 1365 / 4096 := by with_unfolding_all rfl

/-! ## Facts about the rounding model -/

lemma log2Fuel_spec : ∀ fuel n : ℕ, 0 < n → n ≤ fuel →
    2 ^ log2Fuel fuel n ≤ n ∧ n < 2 ^ (log2Fuel fuel n + 1) := by
  intro fuel
  induction fuel with
  | zero => intro n h1 h2; omega
  | succ fuel ih =>
    intro n h1 h2
    rw [log2Fuel]
    by_cases hn : n < 2
    · rw [if_pos hn]; simp; omega
    · rw [if_neg hn]
      have hpos : 0 < n / 2 := Nat.div_pos (by omega) (by norm_num)
      have hle : n / 2 ≤ fuel := by omega
      obtain ⟨l, r⟩ := ih (n / 2) hpos hle
      constructor
      · calc 2 ^ (log2Fuel fuel (n / 2) + 1) = 2 ^ log2Fuel fuel (n / 2) * 2 := by ring
          _ ≤ n / 2 * 2 := by omega
          _ ≤ n := by omega
      · calc n < (n / 2) * 2 + 2 := by omega
          _ ≤ 2 ^ (log2Fuel fuel (n / 2) + 1) * 2 := by
              have : n / 2 + 1 ≤ 2 ^ (log2Fuel fuel (n / 2) + 1) := r
              omega
          _ = 2 ^ (log2Fuel fuel (n / 2) + 1 + 1) := by ring

lemma nlog2_spec (n : ℕ) (h : 0 < n) :
    2 ^ nlog2 n ≤ n ∧ n < 2 ^ (nlog2 n + 1) :=
  log2Fuel_spec n n h le_rfl

lemma qpow2_eq (z : ℤ) : qpow2 z = (2 : ℚ) ^ z := by
  cases z with
  | ofNat n =>
    show ((2 ^ n : ℕ) : ℚ) = (2 : ℚ) ^ (n : ℤ)
    rw [zpow_natCast]; push_cast; ring
  | negSucc n =>
    show 1 / ((2 ^ (n + 1) : ℕ) : ℚ) = (2 : ℚ) ^ (Int.negSucc n)
    rw [zpow_negSucc, one_div]; push_cast; ring_nf

lemma floorLog2_eq_ite (q : ℚ) :
    floorLog2 q =
      if (2 : ℚ) ^ ((nlog2 q.num.toNat : ℤ) - (nlog2 q.den : ℤ)) ≤ q
      then (nlog2 q.num.toNat : ℤ) - (nlog2 q.den : ℤ)
      else (nlog2 q.num.toNat : ℤ) - (nlog2 q.den : ℤ) - 1 := by
  simp only [floorLog2, qpow2_eq]

lemma floorLog2_spec (q : ℚ) (hq : 0 < q) :
    (2 : ℚ) ^ floorLog2 q ≤ q ∧ q < (2 : ℚ) ^ (floorLog2 q + 1) := by
  have hnum : 0 < q.num := Rat.num_pos.mpr hq
  have hden : 0 < q.den := q.pos
  have hapos : 0 < q.num.toNat := by omega
  obtain ⟨pa1, pa2⟩ := nlog2_spec q.num.toNat hapos
  obtain ⟨pb1, pb2⟩ := nlog2_spec q.den hden
  have haq : ((q.num.toNat : ℕ) : ℚ) = (q.num : ℚ) := by
    have hz : ((q.num.toNat : ℕ) : ℤ) = q.num := Int.toNat_of_nonneg (le_of_lt hnum)
    exact_mod_cast hz
  have hqad : q = ((q.num.toNat : ℕ) : ℚ) / ((q.den : ℕ) : ℚ) := by
    rw [haq, Rat.num_div_den]
  have hdenpos : (0 : ℚ) < ((q.den : ℕ) : ℚ) := by exact_mod_cast hden
  have hupper : q < (2 : ℚ) ^ (((nlog2 q.num.toNat : ℤ) - (nlog2 q.den : ℤ)) + 1) := by
    conv_lhs => rw [hqad]
    rw [div_lt_iff₀ hdenpos]
    calc ((q.num.toNat : ℕ) : ℚ) < ((2 ^ (nlog2 q.num.toNat + 1) : ℕ) : ℚ) := by
          exact_mod_cast pa2
      _ = (2 : ℚ) ^ (((nlog2 q.num.toNat : ℤ)) + 1) := by
          rw [show ((nlog2 q.num.toNat : ℤ) + 1) = ((nlog2 q.num.toNat + 1 : ℕ) : ℤ) by
            push_cast; ring, zpow_natCast]
          push_cast; ring
      _ = (2 : ℚ) ^ (((nlog2 q.num.toNat : ℤ) - (nlog2 q.den : ℤ)) + 1) *
            (2 : ℚ) ^ ((nlog2 q.den : ℕ) : ℤ) := by
          rw [← zpow_add₀ (two_ne_zero)]; congr 1; omega
      _ ≤ (2 : ℚ) ^ (((nlog2 q.num.toNat : ℤ) - (nlog2 q.den : ℤ)) + 1) *
            ((q.den : ℕ) : ℚ) := by
          have h2s : (2 : ℚ) ^ ((nlog2 q.den : ℕ) : ℤ) ≤ ((q.den : ℕ) : ℚ) := by
            rw [zpow_natCast]
            exact_mod_cast pb1
          have hpow : (0 : ℚ) < (2 : ℚ) ^ (((nlog2 q.num.toNat : ℤ) - (nlog2 q.den : ℤ)) + 1) :=
            zpow_pos two_pos _
          nlinarith
  have hlower : (2 : ℚ) ^ (((nlog2 q.num.toNat : ℤ) - (nlog2 q.den : ℤ)) - 1) < q := by
    conv_rhs => rw [hqad]
    rw [lt_div_iff₀ hdenpos]
    calc (2 : ℚ) ^ (((nlog2 q.num.toNat : ℤ) - (nlog2 q.den : ℤ)) - 1) * ((q.den : ℕ) : ℚ)
        < (2 : ℚ) ^ (((nlog2 q.num.toNat : ℤ) - (nlog2 q.den : ℤ)) - 1) *
            (2 : ℚ) ^ ((nlog2 q.den : ℤ) + 1) := by
          have hd2 : ((q.den : ℕ) : ℚ) < (2 : ℚ) ^ ((nlog2 q.den : ℤ) + 1) := by
            rw [show ((nlog2 q.den : ℤ) + 1) = ((nlog2 q.den + 1 : ℕ) : ℤ) by
              push_cast; ring, zpow_natCast]
            exact_mod_cast pb2
          have hpow : (0 : ℚ) <
              (2 : ℚ) ^ (((nlog2 q.num.toNat : ℤ) - (nlog2 q.den : ℤ)) - 1) :=
            zpow_pos two_pos _
          nlinarith
      _ = (2 : ℚ) ^ ((nlog2 q.num.toNat : ℕ) : ℤ) := by
          rw [← zpow_add₀ (two_ne_zero)]; congr 1; omega
      _ ≤ ((q.num.toNat : ℕ) : ℚ) := by
          rw [zpow_natCast]
          exact_mod_cast pa1
  rw [floorLog2_eq_ite]
  by_cases hcase : (2 : ℚ) ^ ((nlog2 q.num.toNat : ℤ) - (nlog2 q.den : ℤ)) ≤ q
  · rw [if_pos hcase]
    exact ⟨hcase, hupper⟩
  · rw [if_neg hcase]
    constructor
    · exact le_of_lt hlower
    · rw [sub_add_cancel]
      exact lt_of_not_le hcase

lemma floorLog2_unique (q : ℚ) (e : ℤ) (h1 : (2 : ℚ) ^ e ≤ q)
    (h2 : q < (2 : ℚ) ^ (e + 1)) : floorLog2 q = e := by
  have hq : 0 < q := lt_of_lt_of_le (zpow_pos two_pos _) h1
  obtain ⟨s1, s2⟩ := floorLog2_spec q hq
  have a1 : (2 : ℚ) ^ floorLog2 q < (2 : ℚ) ^ (e + 1) := lt_of_le_of_lt s1 h2
  have a2 : (2 : ℚ) ^ e < (2 : ℚ) ^ (floorLog2 q + 1) := lt_of_le_of_lt h1 s2
  have b1 : floorLog2 q < e + 1 := (zpow_lt_zpow_iff_right₀ one_lt_two).mp a1
  have b2 : e < floorLog2 q + 1 := (zpow_lt_zpow_iff_right₀ one_lt_two).mp a2
  omega

lemma rnEven_intCast (z : ℤ) : rnEven (z : ℚ) = z := by
  unfold rnEven
  rw [Int.floor_intCast]
  norm_num

lemma rnEven_err (q : ℚ) : |(rnEven q : ℚ) - q| ≤ 1 / 2 := by
  unfold rnEven
  dsimp only
  have h1 : (⌊q⌋ : ℚ) ≤ q := Int.floor_le q
  have h2 : q < (⌊q⌋ : ℚ) + 1 := Int.lt_floor_add_one q
  split_ifs with c1 c2 c3
  · rw [abs_le]; constructor <;> linarith
  · rw [abs_le]; push_cast; constructor <;> linarith
  · rw [abs_le]; constructor <;> linarith
  · rw [abs_le]; push_cast; constructor <;> linarith

lemma rnEven_nonneg (q : ℚ) (hq : 0 ≤ q) : 0 ≤ rnEven q := by
  unfold rnEven
  dsimp only
  have h0 : 0 ≤ ⌊q⌋ := Int.floor_nonneg.mpr hq
  split_ifs <;> omega

lemma roundFP_zero (prec : ℕ) (emin : ℤ) : roundFP prec emin 0 = 0 := by
  unfold roundFP
  rw [if_pos rfl]

lemma roundFP_of_pos (prec : ℕ) (emin : ℤ) (q : ℚ) (hq : 0 < q) :
    roundFP prec emin q =
      (rnEven (q / (2 : ℚ) ^ max (floorLog2 q - ((prec : ℤ) - 1)) emin) : ℚ) *
        (2 : ℚ) ^ max (floorLog2 q - ((prec : ℤ) - 1)) emin := by
  unfold roundFP
  dsimp only
  rw [if_neg (ne_of_gt hq), abs_of_pos hq, if_neg (not_lt.mpr (le_of_lt hq)), qpow2_eq,
    one_mul]

lemma roundFP_eq_self (prec : ℕ) (emin : ℤ) (q : ℚ) (hq : 0 < q) (k : ℤ)
    (hk : q = (k : ℚ) * (2 : ℚ) ^ max (floorLog2 q - ((prec : ℤ) - 1)) emin) :
    roundFP prec emin q = q := by
  rw [roundFP_of_pos prec emin q hq]
  set E : ℤ := max (floorLog2 q - ((prec : ℤ) - 1)) emin with hE
  have h2 : ((2 : ℚ) ^ E) ≠ 0 := zpow_ne_zero _ two_ne_zero
  have hdiv : q / (2 : ℚ) ^ E = (k : ℚ) := by
    rw [hk, mul_div_cancel_right₀ _ h2]
  rw [hdiv, rnEven_intCast, ← hk]

lemma roundFP_err (prec : ℕ) (emin : ℤ) (q : ℚ) (hq : 0 < q) :
    |roundFP prec emin q - q| ≤
      (2 : ℚ) ^ max (floorLog2 q - ((prec : ℤ) - 1)) emin / 2 := by
  rw [roundFP_of_pos prec emin q hq]
  have h2 : (0 : ℚ) < (2 : ℚ) ^ max (floorLog2 q - ((prec : ℤ) - 1)) emin :=
    zpow_pos two_pos _
  have herr := rnEven_err (q / (2 : ℚ) ^ max (floorLog2 q - ((prec : ℤ) - 1)) emin)
  have key : (rnEven (q / (2 : ℚ) ^ max (floorLog2 q - ((prec : ℤ) - 1)) emin) : ℚ) *
      (2 : ℚ) ^ max (floorLog2 q - ((prec : ℤ) - 1)) emin - q =
      ((rnEven (q / (2 : ℚ) ^ max (floorLog2 q - ((prec : ℤ) - 1)) emin) : ℚ) -
        q / (2 : ℚ) ^ max (floorLog2 q - ((prec : ℤ) - 1)) emin) *
        (2 : ℚ) ^ max (floorLog2 q - ((prec : ℤ) - 1)) emin := by
    field_simp
  rw [key, abs_mul, abs_of_pos h2]
  calc |(rnEven (q / (2 : ℚ) ^ max (floorLog2 q - ((prec : ℤ) - 1)) emin) : ℚ) -
        q / (2 : ℚ) ^ max (floorLog2 q - ((prec : ℤ) - 1)) emin| *
        (2 : ℚ) ^ max (floorLog2 q - ((prec : ℤ) - 1)) emin
      ≤ 1 / 2 * (2 : ℚ) ^ max (floorLog2 q - ((prec : ℤ) - 1)) emin := by
        exact mul_le_mul_of_nonneg_right herr (le_of_lt h2)
    _ = (2 : ℚ) ^ max (floorLog2 q - ((prec : ℤ) - 1)) emin / 2 := by ring

lemma roundFP_nonneg (prec : ℕ) (emin : ℤ) (q : ℚ) (hq : 0 ≤ q) :
    0 ≤ roundFP prec emin q := by
  rcases eq_or_lt_of_le hq with h | h
  · rw [← h, roundFP_zero]
  · rw [roundFP_of_pos prec emin q h]
    have h2 : (0 : ℚ) < (2 : ℚ) ^ max (floorLog2 q - ((prec : ℤ) - 1)) emin :=
      zpow_pos two_pos _
    have h3 : 0 ≤ rnEven (q / (2 : ℚ) ^ max (floorLog2 q - ((prec : ℤ) - 1)) emin) :=
      rnEven_nonneg _ (le_of_lt (div_pos h h2))
    positivity

lemma roundFP_neg_arg (prec : ℕ) (emin : ℤ) (q : ℚ) :
    roundFP prec emin (-q) = -roundFP prec emin q := by
  rcases lt_trichotomy q 0 with h | h | h
  · have h1 : 0 < -q := by linarith
    unfold roundFP
    dsimp only
    rw [if_neg (ne_of_gt h1), if_neg (ne_of_lt h), abs_neg,
      if_neg (not_lt.mpr (le_of_lt h1)), if_pos h]
    ring
  · rw [h, neg_zero, roundFP_zero, neg_zero]
  · have h1 : -q < 0 := by linarith
    unfold roundFP
    dsimp only
    rw [if_neg (ne_of_lt h1), if_neg (ne_of_gt h), abs_neg,
      if_pos h1, if_neg (not_lt.mpr (le_of_lt h))]
    ring

lemma roundFP_nonpos (prec : ℕ) (emin : ℤ) (q : ℚ) (hq : q ≤ 0) :
    roundFP prec emin q ≤ 0 := by
  have h : 0 ≤ -q := by linarith
  have := roundFP_nonneg prec emin (-q) h
  rw [roundFP_neg_arg] at this
  linarith

lemma floorLog2_natCast (n : ℕ) (h : 0 < n) : floorLog2 (n : ℚ) = nlog2 n := by
  obtain ⟨l, r⟩ := nlog2_spec n h
  apply floorLog2_unique
  · rw [zpow_natCast]
    exact_mod_cast l
  · rw [show ((nlog2 n : ℤ) + 1) = ((nlog2 n + 1 : ℕ) : ℤ) by push_cast; ring, zpow_natCast]
    exact_mod_cast r

lemma floorLog2_mul_zpow (q : ℚ) (hq : 0 < q) (z : ℤ) :
    floorLog2 (q * (2 : ℚ) ^ z) = floorLog2 q + z := by
  obtain ⟨l, r⟩ := floorLog2_spec q hq
  apply floorLog2_unique
  · rw [zpow_add₀ two_ne_zero]
    exact mul_le_mul_of_nonneg_right l (le_of_lt (zpow_pos two_pos z))
  · rw [show floorLog2 q + z + 1 = (floorLog2 q + 1) + z by ring, zpow_add₀ two_ne_zero]
    exact mul_lt_mul_of_pos_right r (zpow_pos two_pos z)

lemma round32_natMul_zpow (n : ℕ) (z : ℤ) (h0 : 0 < n) (h24 : n ≤ 2 ^ 24)
    (hz : -125 ≤ z) : round32 ((n : ℚ) * (2 : ℚ) ^ z) = (n : ℚ) * (2 : ℚ) ^ z := by
  have hnq : (0 : ℚ) < (n : ℚ) := by exact_mod_cast h0
  have hq : 0 < (n : ℚ) * (2 : ℚ) ^ z := mul_pos hnq (zpow_pos two_pos z)
  have hp : floorLog2 ((n : ℚ) * (2 : ℚ) ^ z) = (nlog2 n : ℤ) + z := by
    rw [floorLog2_mul_zpow _ hnq z, floorLog2_natCast n h0]
  have h24' : (2 : ℕ) ^ 24 = 16777216 := by norm_num
  have hple : nlog2 n ≤ 24 := by
    obtain ⟨l, _⟩ := nlog2_spec n h0
    by_contra hc
    push_neg at hc
    have h1 : (2 : ℕ) ^ 25 ≤ 2 ^ nlog2 n := Nat.pow_le_pow_right (by norm_num) (by omega)
    have h2 : (2 : ℕ) ^ 25 = 33554432 := by norm_num
    omega
  have hqe : max (((nlog2 n : ℤ) + z) - (((24 : ℕ) : ℤ) - 1)) (-149) =
      (nlog2 n : ℤ) + z - 23 := by
    have h24c : ((24 : ℕ) : ℤ) = 24 := by norm_num
    rw [h24c]
    exact max_eq_left (by omega)
  rcases Nat.lt_or_ge (nlog2 n) 24 with hp24 | hp24
  · apply roundFP_eq_self _ _ _ hq ((n : ℤ) * 2 ^ (23 - nlog2 n))
    rw [hp, hqe]
    have hexp : ((23 - nlog2 n : ℕ) : ℤ) + ((nlog2 n : ℤ) + z - 23) = z := by omega
    calc (n : ℚ) * (2 : ℚ) ^ z
        = (n : ℚ) * ((2 : ℚ) ^ ((23 - nlog2 n : ℕ) : ℤ) *
            (2 : ℚ) ^ ((nlog2 n : ℤ) + z - 23)) := by
          rw [← zpow_add₀ two_ne_zero, hexp]
      _ = (((n : ℤ) * 2 ^ (23 - nlog2 n) : ℤ) : ℚ) *
            (2 : ℚ) ^ ((nlog2 n : ℤ) + z - 23) := by
          push_cast
          rw [zpow_natCast]
          ring
  · have hp24' : nlog2 n = 24 := by omega
    have hn : n = 2 ^ 24 := by
      obtain ⟨l, _⟩ := nlog2_spec n h0
      rw [hp24'] at l
      omega
    apply roundFP_eq_self _ _ _ hq ((2 : ℤ) ^ 23)
    rw [hp, hqe, hp24', hn]
    have hexp : ((23 : ℕ) : ℤ) + ((24 : ℤ) + z - 23) = 24 + z := by omega
    calc (((2 : ℕ) ^ 24 : ℕ) : ℚ) * (2 : ℚ) ^ z
        = (2 : ℚ) ^ ((24 : ℕ) : ℤ) * (2 : ℚ) ^ z := by
          norm_num [zpow_natCast]
      _ = (2 : ℚ) ^ ((24 : ℤ) + z) := by
          rw [← zpow_add₀ two_ne_zero]
          norm_num
      _ = (2 : ℚ) ^ ((23 : ℕ) : ℤ) * (2 : ℚ) ^ ((24 : ℤ) + z - 23) := by
          rw [← zpow_add₀ two_ne_zero, hexp]
      _ = (((2 : ℤ) ^ 23 : ℤ) : ℚ) * (2 : ℚ) ^ ((24 : ℤ) + z - 23) := by
          norm_num [zpow_natCast]

lemma round32_natCast (n : ℕ) (h : n ≤ 2 ^ 24) : round32 (n : ℚ) = (n : ℚ) := by
  rcases Nat.eq_zero_or_pos n with h0 | h0
  · subst h0
    show round32 0 = 0
    exact roundFP_zero 24 (-149)
  · have := round32_natMul_zpow n 0 h0 h (by norm_num)
    simpa using this

lemma round32_zero : round32 0 = 0 := roundFP_zero 24 (-149)

lemma round32_one : round32 1 = 1 := by
  have := round32_natCast 1 (by norm_num)
  simpa using this

lemma round32_sign_mul (s val : ℚ) (hs : s = 1 ∨ s = -1) (h : round32 val = val) :
    round32 (s * val) = s * val := by
  rcases hs with hs | hs <;> subst hs
  · rw [one_mul]; exact h
  · rw [neg_one_mul]
    show roundFP 24 (-149) (-val) = -val
    rw [roundFP_neg_arg]
    show -round32 val = -val
    rw [h]

lemma f16ToQ_sign_cases (b : ℕ) :
    (if b / 32768 % 2 = 1 then (-1 : ℚ) else 1) = 1 ∨
      (if b / 32768 % 2 = 1 then (-1 : ℚ) else 1) = -1 := by
  split_ifs <;> simp

lemma rep32_f16ToQ (b : ℕ) (hb : f16Finite b) : Rep32 (f16ToQ b) := by
  unfold Rep32 f16ToQ
  dsimp only
  have hF : b % 1024 < 1024 := Nat.mod_lt b (by norm_num)
  by_cases hE : f16Exp b = 0
  · rw [if_pos hE]
    rcases Nat.eq_zero_or_pos (b % 1024) with hF0 | hF0
    · rw [hF0]
      norm_num
      exact round32_zero
    · rw [qpow2_eq, mul_assoc]
      apply round32_sign_mul _ _ (f16ToQ_sign_cases b)
      exact round32_natMul_zpow (b % 1024) (-24) hF0 (by omega) (by norm_num)
  · unfold f16Finite at hb
    rw [if_neg hE, if_neg hb, qpow2_eq, mul_assoc]
    apply round32_sign_mul _ _ (f16ToQ_sign_cases b)
    have hE31 : f16Exp b < 32 := by
      unfold f16Exp
      exact Nat.mod_lt _ (by norm_num)
    exact round32_natMul_zpow (1024 + b % 1024) ((f16Exp b : ℤ) - 25) (by omega)
      (by omega) (by omega)

lemma u32add_eq (a b : ℕ) (h : a + b < 4294967296) : u32add a b = a + b := by
  unfold u32add
  omega

lemma u32mul_eq (a b : ℕ) (h : a * b < 4294967296) : u32mul a b = a * b := by
  unfold u32mul
  exact Nat.mod_eq_of_lt h

lemma u32sub_eq (a b : ℕ) (h1 : b ≤ a) (h2 : a < 4294967296) : u32sub a b = a - b := by
  unfold u32sub
  omega

lemma f32mul_zero (x : ℚ) : f32mul x 0 = 0 := by
  unfold f32mul
  rw [mul_zero]
  exact round32_zero

lemma f32mul_one (x : ℚ) (h : Rep32 x) : f32mul x 1 = x := by
  unfold f32mul
  rw [mul_one]
  exact h

lemma f32add_zero (x : ℚ) (h : Rep32 x) : f32add x 0 = x := by
  unfold f32add
  rw [add_zero]
  exact h

lemma f32sub_one_zero : f32sub 1 0 = 1 := by
  unfold f32sub
  rw [sub_zero]
  exact round32_one

/-- At grid points the bilinear weights collapse: with `tx = ty = 0` the
blend returns the top-left texel (scaled by `max_elevation`). -/
lemma bilerp_zero_weights (v00 v10 v01 v11 m : ℚ) (h : Rep32 v00) :
    bilerp 0 0 v00 v10 v01 v11 m = f32mul v00 m := by
  unfold bilerp
  rw [f32sub_one_zero, f32mul_one v00 h, f32mul_zero, f32add_zero v00 h,
    f32mul_zero, f32mul_one v00 h, f32add_zero v00 h]

/-- An in-bounds texel read. -/
lemma dem_i_eq (d : Dem) (x y : ℕ) (hx : x < d.width) (hy : y < d.height)
    (hlen : d.dem.length = d.width * d.height)
    (hwh : d.width * d.height < 4294967296) :
    d.i x y = some (f16ToQ (d.dem.getD (y * d.width + x) 0)) := by
  unfold Dem.i
  have hidx : y * d.width + x < d.width * d.height := by
    calc y * d.width + x < y * d.width + d.width := by omega
      _ = (y + 1) * d.width := by ring
      _ ≤ d.height * d.width := Nat.mul_le_mul_right _ (by omega)
      _ = d.width * d.height := Nat.mul_comm _ _
  have h1 : u32mul y d.width = y * d.width := by
    apply u32mul_eq
    calc y * d.width ≤ y * d.width + x := by omega
      _ < 4294967296 := by omega
  have h2 : u32add (y * d.width) x = y * d.width + x := by
    apply u32add_eq
    omega
  rw [h1, h2]
  have hlt : y * d.width + x < d.dem.length := by omega
  rw [List.get?_eq_getElem?, List.getElem?_eq_getElem hlt]
  have hD : d.dem.getD (y * d.width + x) 0 = d.dem[y * d.width + x] :=
    List.getD_eq_getElem d.dem 0 hlt
  rw [hD]
  rfl

/-- `get_elevation` at an in-bounds pixel. -/
lemma get_elevation_eq_of_lt (d : Dem) (x y : ℕ) (hx : x < d.width)
    (hy : y < d.height) (hlen : d.dem.length = d.width * d.height)
    (hwh : d.width * d.height < 4294967296) :
    d.get_elevation x y =
      some (f32mul (f16ToQ (d.dem.getD (y * d.width + x) 0))
        d.profile.max_elevation) := by
  unfold Dem.get_elevation
  have hi := dem_i_eq d x y hx hy hlen hwh
  unfold Dem.i at hi
  rcases Option.map_eq_some'.mp hi with ⟨b, hb1, hb2⟩
  rw [hb1]
  show some (f32mul (f16ToQ b) d.profile.max_elevation) = _
  rw [hb2]

/-- When all four texel reads are in bounds, sampling succeeds and returns
the bilinear blend of the four decoded texels. -/
lemma sample_eq_bilerp (d : Dem) (u v : ℚ)
    (hlen : d.dem.length = d.width * d.height)
    (hwh : d.width * d.height < 4294967296)
    (hx0 : d.x0 u < d.width) (hx1 : d.x1 u < d.width)
    (hy0 : d.y0 v < d.height) (hy1 : d.y1 v < d.height) :
    d.sample_elevation_uv u v = some (bilerp (d.tx u) (d.ty v)
      (f16ToQ (d.dem.getD (d.y0 v * d.width + d.x0 u) 0))
      (f16ToQ (d.dem.getD (d.y0 v * d.width + d.x1 u) 0))
      (f16ToQ (d.dem.getD (d.y1 v * d.width + d.x0 u) 0))
      (f16ToQ (d.dem.getD (d.y1 v * d.width + d.x1 u) 0))
      d.profile.max_elevation) := by
  unfold Dem.sample_elevation_uv
  rw [dem_i_eq d _ _ hx0 hy0 hlen hwh, dem_i_eq d _ _ hx1 hy0 hlen hwh,
    dem_i_eq d _ _ hx0 hy1 hlen hwh, dem_i_eq d _ _ hx1 hy1 hlen hwh]
  rfl

/-- If the first texel read is out of bounds, sampling panics. -/
lemma sample_none_of_first_oob (d : Dem) (u v : ℚ)
    (h : d.dem.length ≤ u32add (u32mul (d.y0 v) d.width) (d.x0 u)) :
    d.sample_elevation_uv u v = none := by
  unfold Dem.sample_elevation_uv Dem.i
  rw [List.get?_eq_none.mpr h]
  rfl

lemma f32ToU32_natCast (x : ℕ) (hx : x < 4294967296) : f32ToU32 (x : ℚ) = x := by
  unfold f32ToU32
  rw [if_neg (not_lt.mpr (by positivity : (0 : ℚ) ≤ (x : ℚ))), Int.floor_natCast]
  simp
  omega

lemma x0_of_fx (d : Dem) (u : ℚ) (x : ℕ) (hfx : d.fx u = (x : ℚ))
    (hx : x < 4294967296) : d.x0 u = x := by
  unfold Dem.x0
  rw [hfx]
  exact f32ToU32_natCast x hx

lemma y0_of_fy (d : Dem) (v : ℚ) (y : ℕ) (hfy : d.fy v = (y : ℚ))
    (hy : y < 4294967296) : d.y0 v = y := by
  unfold Dem.y0
  rw [hfy]
  exact f32ToU32_natCast y hy

lemma tx_of_fx (d : Dem) (u : ℚ) (x : ℕ) (hfx : d.fx u = (x : ℚ))
    (hx : x ≤ 2 ^ 24) : d.tx u = 0 := by
  unfold Dem.tx
  rw [x0_of_fx d u x hfx (by omega), hfx]
  unfold f32sub natToF32
  rw [round32_natCast x hx, sub_self]
  exact round32_zero

lemma ty_of_fy (d : Dem) (v : ℚ) (y : ℕ) (hfy : d.fy v = (y : ℚ))
    (hy : y ≤ 2 ^ 24) : d.ty v = 0 := by
  unfold Dem.ty
  rw [y0_of_fy d v y hfy (by omega), hfy]
  unfold f32sub natToF32
  rw [round32_natCast y hy, sub_self]
  exact round32_zero

/-- Central collapse lemma: when the scaled coordinates `fx`, `fy` land
exactly on the integer grid point `(x, y)`, bilinear sampling returns
exactly `get_elevation x y`. -/
lemma sample_at_grid (d : Dem) (u v : ℚ) (x y : ℕ)
    (hfx : d.fx u = (x : ℚ)) (hfy : d.fy v = (y : ℚ))
    (hx : x < d.width) (hy : y < d.height)
    (hw : d.width ≤ 16777217) (hh : d.height ≤ 16777217)
    (hlen : d.dem.length = d.width * d.height)
    (hwh : d.width * d.height < 4294967296)
    (hfin : ∀ b ∈ d.dem, f16Finite b) :
    d.sample_elevation_uv u v = d.get_elevation x y := by
  have hx24 : x ≤ 2 ^ 24 := by omega
  have hy24 : y ≤ 2 ^ 24 := by omega
  have hx0 : d.x0 u = x := x0_of_fx d u x hfx (by omega)
  have hy0 : d.y0 v = y := y0_of_fy d v y hfy (by omega)
  have hwpos : 0 < d.width := by omega
  have hhpos : 0 < d.height := by omega
  have hx1lt : d.x1 u < d.width := by
    unfold Dem.x1
    have h1 : u32sub d.width 1 = d.width - 1 := u32sub_eq _ _ (by omega) (by omega)
    rw [h1]
    omega
  have hy1lt : d.y1 v < d.height := by
    unfold Dem.y1
    have h1 : u32sub d.height 1 = d.height - 1 := u32sub_eq _ _ (by omega) (by omega)
    rw [h1]
    omega
  rw [sample_eq_bilerp d u v hlen hwh (by rw [hx0]; exact hx) hx1lt
    (by rw [hy0]; exact hy) hy1lt]
  rw [tx_of_fx d u x hfx hx24, ty_of_fy d v y hfy hy24, hx0, hy0]
  have hidxlt : y * d.width + x < d.dem.length := by
    rw [hlen]
    calc y * d.width + x < y * d.width + d.width := by omega
      _ = (y + 1) * d.width := by ring
      _ ≤ d.height * d.width := Nat.mul_le_mul_right _ (by omega)
      _ = d.width * d.height := Nat.mul_comm _ _
  have hrep : Rep32 (f16ToQ (d.dem.getD (y * d.width + x) 0)) := by
    apply rep32_f16ToQ
    apply hfin
    rw [List.getD_eq_getElem d.dem 0 hidxlt]
    exact List.getElem_mem hidxlt
  rw [bilerp_zero_weights _ _ _ _ _ hrep]
  rw [get_elevation_eq_of_lt d x y hx hy hlen hwh]

lemma fx_one (d : Dem) (hw1 : 1 ≤ d.width) (hw : d.width ≤ 16777217) :
    d.fx 1 = ((d.width - 1 : ℕ) : ℚ) := by
  unfold Dem.fx
  rw [u32sub_eq _ _ (by omega) (by omega)]
  unfold f32mul natToF32
  rw [round32_natCast (d.width - 1) (by omega), one_mul,
    round32_natCast (d.width - 1) (by omega)]

lemma fy_one (d : Dem) (hh1 : 1 ≤ d.height) (hh : d.height ≤ 16777217) :
    d.fy 1 = ((d.height - 1 : ℕ) : ℚ) := by
  unfold Dem.fy
  rw [u32sub_eq _ _ (by omega) (by omega)]
  unfold f32mul natToF32
  rw [round32_natCast (d.height - 1) (by omega), one_mul,
    round32_natCast (d.height - 1) (by omega)]

lemma div_pow_exact (x a : ℕ) (ha : a ≤ 24) (hx : x ≤ 2 ^ a) :
    f32div (natToF32 x) (natToF32 (2 ^ a)) = (x : ℚ) / ((2 ^ a : ℕ) : ℚ) := by
  have h2a : (2 : ℕ) ^ a ≤ 2 ^ 24 := Nat.pow_le_pow_right (by norm_num) ha
  unfold f32div natToF32
  rw [round32_natCast x (by omega), round32_natCast (2 ^ a) h2a]
  rcases Nat.eq_zero_or_pos x with h0 | h0
  · subst h0
    norm_num
    exact round32_zero
  · have key : (x : ℚ) / ((2 ^ a : ℕ) : ℚ) = (x : ℚ) * (2 : ℚ) ^ (-(a : ℤ)) := by
      rw [zpow_neg, div_eq_mul_inv]
      congr 1
      rw [zpow_natCast]
      push_cast
      ring
    rw [key]
    exact round32_natMul_zpow x (-(a : ℤ)) h0 (by omega) (by omega)

lemma fx_div_pow (d : Dem) (x a : ℕ) (hwa : d.width = 2 ^ a + 1) (ha : a ≤ 24)
    (hx : x ≤ 2 ^ a) :
    d.fx (f32div (natToF32 x) (natToF32 (u32sub d.width 1))) = (x : ℚ) := by
  have h2a : (2 : ℕ) ^ a ≤ 2 ^ 24 := Nat.pow_le_pow_right (by norm_num) ha
  have h24 : (2 : ℕ) ^ 24 = 16777216 := by norm_num
  have hsub : u32sub d.width 1 = 2 ^ a := by
    rw [u32sub_eq _ _ (by omega) (by omega), hwa]
    omega
  unfold Dem.fx
  rw [hsub, div_pow_exact x a ha hx]
  unfold f32mul natToF32
  rw [round32_natCast (2 ^ a) h2a]
  have hcastpos : (0 : ℚ) < ((2 ^ a : ℕ) : ℚ) := by positivity
  rw [div_mul_cancel₀ _ (ne_of_gt hcastpos)]
  rw [round32_natCast x (by omega)]

lemma fy_div_pow (d : Dem) (y b : ℕ) (hhb : d.height = 2 ^ b + 1) (hb : b ≤ 24)
    (hy : y ≤ 2 ^ b) :
    d.fy (f32div (natToF32 y) (natToF32 (u32sub d.height 1))) = (y : ℚ) := by
  have h2b : (2 : ℕ) ^ b ≤ 2 ^ 24 := Nat.pow_le_pow_right (by norm_num) hb
  have h24 : (2 : ℕ) ^ 24 = 16777216 := by norm_num
  have hsub : u32sub d.height 1 = 2 ^ b := by
    rw [u32sub_eq _ _ (by omega) (by omega), hhb]
    omega
  unfold Dem.fy
  rw [hsub, div_pow_exact y b hb hy]
  unfold f32mul natToF32
  rw [round32_natCast (2 ^ b) h2b]
  have hcastpos : (0 : ℚ) < ((2 ^ b : ℕ) : ℚ) := by positivity
  rw [div_mul_cancel₀ _ (ne_of_gt hcastpos)]
  rw [round32_natCast y (by omega)]

lemma lt_divCeil_iff (W c t : ℕ) (hc : 0 < c) : t < divCeil W c ↔ t * c < W := by
  unfold divCeil
  have hdm := Nat.div_add_mod W c
  have hmlt := Nat.mod_lt W hc
  rcases Nat.eq_zero_or_pos (W % c) with h | h
  · rw [if_neg (by omega)]
    constructor
    · intro ht
      have h1 : t + 1 ≤ W / c := ht
      have h2 : (t + 1) * c ≤ (W / c) * c := Nat.mul_le_mul_right c h1
      have h3 : (W / c) * c ≤ W := Nat.div_mul_le_self W c
      nlinarith
    · intro ht
      by_contra hc2
      push_neg at hc2
      have h1 : (W / c) * c ≤ t * c := Nat.mul_le_mul_right c hc2
      have h2 : (W / c) * c = W := by nlinarith [Nat.div_add_mod W c]
      omega
  · rw [if_pos h]
    constructor
    · intro ht
      have h1 : t ≤ W / c := by omega
      have h2 : t * c ≤ (W / c) * c := Nat.mul_le_mul_right c h1
      have h3 : (W / c) * c < W := by nlinarith [Nat.div_add_mod W c]
      omega
    · intro ht
      by_contra hc2
      push_neg at hc2
      have h1 : (W / c + 1) * c ≤ t * c := Nat.mul_le_mul_right c (by omega)
      have h2 : W < (W / c + 1) * c := by nlinarith [Nat.div_add_mod W c]
      omega

lemma le_divCeil_mul (W c : ℕ) (hc : 0 < c) : W ≤ divCeil W c * c := by
  by_contra hcon
  push_neg at hcon
  have := (lt_divCeil_iff W c (divCeil W c) hc).mpr hcon
  omega

lemma tile_start_eq (t c : ℕ) (hc : 0 < c) (numc : ℕ) (ht : t < numc)
    (hov : numc * c < 4294967296) : tile_start t c = t * c := by
  unfold tile_start
  apply u32mul_eq
  have : t * c ≤ numc * c := Nat.mul_le_mul_right c (by omega)
  omega

lemma tile_end_eq (T t c : ℕ) (hc : 0 < c) (numc : ℕ) (ht : t < numc)
    (hov : numc * c < 4294967296) : tile_end T t c = min ((t + 1) * c) T := by
  unfold tile_end
  congr 1
  apply u32mul_eq
  have : (t + 1) * c ≤ numc * c := Nat.mul_le_mul_right c (by omega)
  omega

lemma tile_axis_cover (T c p : ℕ) (hc : 0 < c)
    (hov : divCeil T c * c < 4294967296) (hp : p < T) :
    p / c < divCeil T c ∧ tile_start (p / c) c ≤ p ∧ p < tile_end T (p / c) c := by
  have hnum : p / c < divCeil T c := by
    rw [lt_divCeil_iff T c _ hc]
    have h1 : (p / c) * c ≤ p := Nat.div_mul_le_self p c
    omega
  refine ⟨hnum, ?_, ?_⟩
  · rw [tile_start_eq _ _ hc _ hnum hov]
    exact Nat.div_mul_le_self p c
  · rw [tile_end_eq T _ c hc _ hnum hov]
    have := Nat.div_add_mod p c
    have := Nat.mod_lt p hc
    have h2 : p < (p / c + 1) * c := by nlinarith [Nat.div_add_mod p c, Nat.mod_lt p hc]
    omega

lemma tile_axis_unique (T c t p : ℕ) (hc : 0 < c)
    (hov : divCeil T c * c < 4294967296) (ht : t < divCeil T c)
    (h1 : tile_start t c ≤ p) (h2 : p < tile_end T t c) : t = p / c := by
  rw [tile_start_eq _ _ hc _ ht hov] at h1
  rw [tile_end_eq T _ c hc _ ht hov] at h2
  have h3 : p < (t + 1) * c := by omega
  exact (Nat.div_eq_of_lt_le h1 h3).symm

lemma tile_subset_axis (T c t p : ℕ) (h2 : p < tile_end T t c) : p < T := by
  unfold tile_end at h2
  omega

lemma flatMap_range_length {α : Type} (n m : ℕ) (f : ℕ → ℕ → α)
    (hf : ∀ i, ((List.range m).map (f i)).length = m) :
    ((List.range n).flatMap (fun y => (List.range m).map (f y))).length = n * m := by
  induction n with
  | zero => simp
  | succ n ih =>
    rw [List.range_succ, List.flatMap_append, List.length_append, ih]
    simp [hf n]
    ring

lemma flatMap_range_get {α : Type} (n m : ℕ) (f : ℕ → ℕ → α) (i j : ℕ)
    (hi : i < n) (hj : j < m) :
    ((List.range n).flatMap (fun y => (List.range m).map (f y))).get? (i * m + j) =
      some (f i j) := by
  induction n with
  | zero => omega
  | succ n ih =>
    rw [List.range_succ, List.flatMap_append]
    have hlen : ((List.range n).flatMap (fun y => (List.range m).map (f y))).length =
        n * m := flatMap_range_length n m f (fun i => by simp)
    rcases Nat.lt_or_ge i n with hin | hin
    · rw [List.get?_append]
      · exact ih hin
      · rw [hlen]
        calc i * m + j < i * m + m := by omega
          _ = (i + 1) * m := by ring
          _ ≤ n * m := Nat.mul_le_mul_right m (by omega)
    · have hieq : i = n := by omega
      subst hieq
      rw [List.get?_append_right (by rw [hlen]; nlinarith)]
      rw [hlen]
      have hidx : i * m + j - i * m = j := by omega
      rw [hidx]
      simp [List.get?_eq_getElem?, List.getElem?_range hj]


lemma initChunks_inv (W H cw ch : ℕ) (profile : DemProfile)
    (hcw : 0 < cw) (hch : 0 < ch)
    (hovx : divCeil W cw * cw < 4294967296)
    (hovy : divCeil H ch * ch < 4294967296)
    (hcc : cw * ch < 4294967296) :
    chunksInv W H cw ch profile (initChunks W H cw ch profile) := by
  constructor
  · unfold initChunks
    rw [flatMap_range_length _ _ _ (fun i => by simp)]
  · intro k hk
    have hnumx : 0 < divCeil W cw := by
      rcases Nat.eq_zero_or_pos (divCeil W cw) with h | h
      · rw [h] at hk; omega
      · exact h
    have htx : k % divCeil W cw < divCeil W cw := Nat.mod_lt _ hnumx
    have hty : k / divCeil W cw < divCeil H ch := by
      rw [Nat.div_lt_iff_lt_mul hnumx]
      calc k < divCeil H ch * divCeil W cw := hk
        _ = divCeil H ch * divCeil W cw := rfl
    have hkeq : k = (k / divCeil W cw) * divCeil W cw + k % divCeil W cw := by
      rw [Nat.mul_comm]
      exact (Nat.div_add_mod k _).symm
    have hget := flatMap_range_get (divCeil H ch) (divCeil W cw)
      (mkChunk W H cw ch profile) (k / divCeil W cw) (k % divCeil W cw) hty htx
    refine ⟨mkChunk W H cw ch profile (k / divCeil W cw) (k % divCeil W cw), ?_, ?_⟩
    · show (initChunks W H cw ch profile).get? k = _
      unfold initChunks
      conv_lhs => rw [hkeq]
      exact hget
    · -- geometry of the allocated chunk
      have hts : tile_start (k % divCeil W cw) cw = (k % divCeil W cw) * cw :=
        tile_start_eq _ _ hcw _ htx hovx
    
      have hte : tile_end W (k % divCeil W cw) cw =
          min ((k % divCeil W cw + 1) * cw) W :=
        tile_end_eq _ _ _ hcw _ htx hovx
      have hts2 : tile_start (k / divCeil W cw) ch = (k / divCeil W cw) * ch :=
        tile_start_eq _ _ hch _ hty hovy
      have hte2 : tile_end H (k / divCeil W cw) ch =
          min ((k / divCeil W cw + 1) * ch) H :=
        tile_end_eq _ _ _ hch _ hty hovy
      have hWlt : (k % divCeil W cw) * cw < W := (lt_divCeil_iff _ _ _ hcw).mp htx
      have hHlt : (k / divCeil W cw) * ch < H := (lt_divCeil_iff _ _ _ hch).mp hty
      have hsle : tile_start (k % divCeil W cw) cw < tile_end W (k % divCeil W cw) cw := by
        rw [hts, hte]
        have : (k % divCeil W cw) * cw < (k % divCeil W cw + 1) * cw := by nlinarith
        omega
      have hsle2 : tile_start (k / divCeil W cw) ch < tile_end H (k / divCeil W cw) ch := by
        rw [hts2, hte2]
        have : (k / divCeil W cw) * ch < (k / divCeil W cw + 1) * ch := by nlinarith
        omega
      have hteb : tile_end W (k % divCeil W cw) cw < 4294967296 := by
        rw [hte]
        have h1 : (k % divCeil W cw + 1) * cw ≤ divCeil W cw * cw :=
          Nat.mul_le_mul_right cw (by omega)
        omega
      have hteb2 : tile_end H (k / divCeil W cw) ch < 4294967296 := by
        rw [hte2]
        have h1 : (k / divCeil W cw + 1) * ch ≤ divCeil H ch * ch :=
          Nat.mul_le_mul_right ch (by omega)
        omega
      have hwsub : u32sub (tile_end W (k % divCeil W cw) cw)
          (tile_start (k % divCeil W cw) cw) =
          tile_end W (k % divCeil W cw) cw - tile_start (k % divCeil W cw) cw :=
        u32sub_eq _ _ (by omega) (by omega)
      have hhsub : u32sub (tile_end H (k / divCeil W cw) ch)
          (tile_start (k / divCeil W cw) ch) =
          tile_end H (k / divCeil W cw) ch - tile_start (k / divCeil W cw) ch :=
        u32sub_eq _ _ (by omega) (by omega)
      have hwle : tile_end W (k % divCeil W cw) cw -
          tile_start (k % divCeil W cw) cw ≤ cw := by
        rw [hts, hte]
        have : (k % divCeil W cw + 1) * cw = (k % divCeil W cw) * cw + cw := by ring
        omega
      have hhle : tile_end H (k / divCeil W cw) ch -
          tile_start (k / divCeil W cw) ch ≤ ch := by
        rw [hts2, hte2]
        have : (k / divCeil W cw + 1) * ch = (k / divCeil W cw) * ch + ch := by ring
        omega
      unfold chunkGeom mkChunk Dem.width Dem.height
      dsimp only
      refine ⟨rfl, rfl, rfl, rfl, rfl, ?_, ?_, ?_, ?_⟩
      · rw [List.length_replicate, hwsub, hhsub]
        apply u32mul_eq
        calc (tile_end W (k % divCeil W cw) cw - tile_start (k % divCeil W cw) cw) *
              (tile_end H (k / divCeil W cw) ch - tile_start (k / divCeil W cw) ch)
            ≤ cw * ch := Nat.mul_le_mul hwle hhle
          _ < 4294967296 := hcc
      · rw [hwsub]
        omega
      · rw [hhsub]
        omega
      · rw [hwsub, hhsub]
        calc (tile_end W (k % divCeil W cw) cw - tile_start (k % divCeil W cw) cw) *
              (tile_end H (k / divCeil W cw) ch - tile_start (k / divCeil W cw) ch)
            ≤ cw * ch := Nat.mul_le_mul hwle hhle
          _ < 4294967296 := hcc

lemma writePixel_preserves (W H cw ch : ℕ) (profile : DemProfile) (pix : ℕ → ℕ → ℕ)
    (hcw : 0 < cw) (hch : 0 < ch)
    (hnn : divCeil H ch * divCeil W cw < 4294967296)
    (cs : List Dem) (x y : ℕ) (hx : x < W) (hy : y < H)
    (hinv : chunksInv W H cw ch profile cs) :
    ∃ cs', writePixel cw ch (divCeil W cw) pix cs (x, y) = some cs' ∧
      chunksInv W H cw ch profile cs' := by
  obtain ⟨hlen, hk⟩ := hinv
  have htx : x / cw < divCeil W cw := by
    rw [lt_divCeil_iff _ _ _ hcw]
    have h1 : (x / cw) * cw ≤ x := Nat.div_mul_le_self x cw
    omega
  have hty : y / ch < divCeil H ch := by
    rw [lt_divCeil_iff _ _ _ hch]
    have h1 : (y / ch) * ch ≤ y := Nat.div_mul_le_self y ch
    omega
  have hkidx : (y / ch) * divCeil W cw + x / cw < divCeil H ch * divCeil W cw := by
    calc (y / ch) * divCeil W cw + x / cw < (y / ch) * divCeil W cw + divCeil W cw := by
          omega
      _ = (y / ch + 1) * divCeil W cw := by ring
      _ ≤ divCeil H ch * divCeil W cw := Nat.mul_le_mul_right _ (by omega)
  have hb1 : (y / ch) * divCeil W cw < 4294967296 := by
    calc (y / ch) * divCeil W cw ≤ (y / ch) * divCeil W cw + x / cw := Nat.le_add_right _ _
      _ < divCeil H ch * divCeil W cw := hkidx
      _ < 4294967296 := hnn
  have hci : u32add (u32mul (y / ch) (divCeil W cw)) (x / cw) =
      (y / ch) * divCeil W cw + x / cw := by
    rw [u32mul_eq _ _ hb1]
    exact u32add_eq _ _ (by omega)
  obtain ⟨c, hc, hg⟩ := hk _ hkidx
  obtain ⟨g1, g2, g3, g4, g5, g6, g7, g8, g9⟩ := hg
  unfold writePixel
  dsimp only
  rw [hci, hc, Option.some_bind]
  rw [if_neg (by omega)]
  have hdx : x % c.width < c.width := Nat.mod_lt _ g7
  have hdy : y % c.height < c.height := Nat.mod_lt _ g8
  have hdemval : (y % c.height) * c.width + x % c.width < c.width * c.height := by
    calc (y % c.height) * c.width + x % c.width < (y % c.height) * c.width + c.width := by
          omega
      _ = (y % c.height + 1) * c.width := by ring
      _ ≤ c.height * c.width := Nat.mul_le_mul_right _ (by omega)
      _ = c.width * c.height := Nat.mul_comm _ _
  have hb2 : (y % c.height) * c.width < 4294967296 := by omega
  have hdem : u32add (u32mul (y % c.height) c.width) (x % c.width) =
      (y % c.height) * c.width + x % c.width := by
    rw [u32mul_eq _ _ hb2]
    exact u32add_eq _ _ (by omega)
  rw [hdem, if_pos (by omega)]
  refine ⟨_, rfl, ?_, ?_⟩
  · rw [List.length_set]
    exact hlen
  · intro k hklt
    obtain ⟨ck, hck, hgk⟩ := hk k hklt
    by_cases hkeq : k = (y / ch) * divCeil W cw + x / cw
    · subst hkeq
      have hkl : (y / ch) * divCeil W cw + x / cw < cs.length := by omega
      refine ⟨{ c with dem := c.dem.set ((y % c.height) * c.width + x % c.width) (quantBits (pix x y)) }, ?_, ?_⟩
      · rw [List.get?_eq_getElem?, List.getElem?_set_self (by omega)]
      · have hceq : ck = c := by
          rw [hck] at hc
          exact Option.some_injective _ hc
        subst hceq
        obtain ⟨k1, k2, k3, k4, k5, k6, k7, k8, k9⟩ := hgk
        exact ⟨k1, k2, k3, k4, k5, by rw [List.length_set]; exact k6, k7, k8, k9⟩
    · refine ⟨ck, ?_, hgk⟩
      rw [List.get?_eq_getElem?, List.getElem?_set_ne (by omega), ← List.get?_eq_getElem?]
      exact hck

lemma foldlM_option_inv {α β : Type} (P : β → Prop) (step : β → α → Option β) :
    ∀ (l : List α) (init : β), P init →
    (∀ s a, P s → a ∈ l → ∃ s', step s a = some s' ∧ P s') →
    ∃ s, l.foldlM step init = some s ∧ P s := by
  intro l
  induction l with
  | nil =>
    intro init h _
    exact ⟨init, rfl, h⟩
  | cons a l ih =>
    intro init h hstep
    obtain ⟨s1, hs1, hp1⟩ := hstep init a h (List.mem_cons_self a l)
    obtain ⟨s2, hs2, hp2⟩ := ih s1 hp1 (fun s b hs hb => hstep s b hs (List.mem_cons_of_mem a hb))
    refine ⟨s2, ?_, hp2⟩
    rw [List.foldlM_cons, hs1]
    exact hs2

lemma pixelList_mem (W H : ℕ) (p : ℕ × ℕ) (hp : p ∈ pixelList W H) :
    p.1 < W ∧ p.2 < H := by
  unfold pixelList at hp
  rw [List.mem_flatMap] at hp
  obtain ⟨y, hy, hmem⟩ := hp
  rw [List.mem_map] at hmem
  obtain ⟨x, hx, hxy⟩ := hmem
  rw [List.mem_range] at hy hx
  rw [← hxy]
  exact ⟨hx, hy⟩

/-- Under the stated no-overflow side conditions, ingestion succeeds and the
returned chunk list satisfies the geometric invariant. -/
lemma load_chunks_ok (img : Image) (cw ch : ℕ) (profile : DemProfile)
    (hW : img.width = profile.width) (hH : img.height = profile.height)
    (hcw : 0 < cw) (hch : 0 < ch)
    (hovx : divCeil img.width cw * cw < 4294967296)
    (hovy : divCeil img.height ch * ch < 4294967296)
    (hcc : cw * ch < 4294967296)
    (hnn : divCeil img.height ch * divCeil img.width cw < 4294967296) :
    ∃ cs, Dem.load_chunks_from_image img cw ch profile = some cs ∧
      chunksInv img.width img.height cw ch profile cs := by
  unfold Dem.load_chunks_from_image
  rw [if_pos ⟨hW, hH⟩, if_neg (by omega)]
  exact foldlM_option_inv _ _ (pixelList img.width img.height)
    (initChunks img.width img.height cw ch profile)
    (initChunks_inv img.width img.height cw ch profile hcw hch hovx hovy hcc)
    (fun s p hs hp => by
      obtain ⟨hp1, hp2⟩ := pixelList_mem _ _ p hp
      obtain ⟨cs', h1, h2⟩ := writePixel_preserves img.width img.height cw ch profile
        img.pix hcw hch hnn s p.1 p.2 hp1 hp2 hs
      exact ⟨cs', by rw [← h1], h2⟩)

lemma rnEven_bounds (q : ℚ) (lo hi : ℤ) (h1 : (lo : ℚ) ≤ q) (h2 : q < (hi : ℚ)) :
    lo ≤ rnEven q ∧ rnEven q ≤ hi := by
  have herr := rnEven_err q
  rw [abs_le] at herr
  constructor
  · by_contra hc
    push_neg at hc
    have hcq : (rnEven q : ℚ) ≤ (lo : ℚ) - 1 := by
      have : rnEven q ≤ lo - 1 := by omega
      exact_mod_cast this
    linarith
  · by_contra hc
    push_neg at hc
    have hcq : (hi : ℚ) + 1 ≤ (rnEven q : ℚ) := by
      have : hi + 1 ≤ rnEven q := by omega
      exact_mod_cast this
    linarith

lemma f16ToQ_of_fields (E F : ℕ) (hE1 : 1 ≤ E) (hE2 : E ≤ 30) (hF : F < 1024) :
    f16ToQ (E * 1024 + F) = ((1024 + F : ℕ) : ℚ) * (2 : ℚ) ^ ((E : ℤ) - 25) := by
  unfold f16ToQ f16Exp
  dsimp only
  have hm : (E * 1024 + F) % 1024 = F := by omega
  have hd : (E * 1024 + F) / 1024 % 32 = E := by omega
  rw [hm, hd, if_neg (by omega), if_neg (by omega), if_neg (by omega), qpow2_eq, one_mul]

lemma f16_roundtrip_normal (n e : ℤ) (hn1 : 2 ^ 10 ≤ n) (hn2 : n < 2 ^ 11)
    (he1 : -14 ≤ e) (he2 : e ≤ 15) :
    f16ToQ (f16BitsOfQ ((n : ℚ) * (2 : ℚ) ^ (e - 10))) =
      (n : ℚ) * (2 : ℚ) ^ (e - 10) := by
  have hnq : (0 : ℚ) < (n : ℚ) := by
    have : (0 : ℤ) < n := by omega
    exact_mod_cast this
  have hq : 0 < (n : ℚ) * (2 : ℚ) ^ (e - 10) := mul_pos hnq (zpow_pos two_pos _)
  have hcast10 : ((2 ^ 10 : ℤ) : ℚ) = (2 : ℚ) ^ (10 : ℤ) := by
    push_cast
    rw [show ((10 : ℤ)) = ((10 : ℕ) : ℤ) by norm_num, zpow_natCast]
    norm_num
  have hcast11 : ((2 ^ 11 : ℤ) : ℚ) = (2 : ℚ) ^ (11 : ℤ) := by
    push_cast
    rw [show ((11 : ℤ)) = ((11 : ℕ) : ℤ) by norm_num, zpow_natCast]
    norm_num
  have hfl : floorLog2 ((n : ℚ) * (2 : ℚ) ^ (e - 10)) = e := by
    apply floorLog2_unique
    · calc (2 : ℚ) ^ e = (2 : ℚ) ^ (10 : ℤ) * (2 : ℚ) ^ (e - 10) := by
            rw [← zpow_add₀ two_ne_zero]
            congr 1
            ring
        _ ≤ (n : ℚ) * (2 : ℚ) ^ (e - 10) := by
            have h10 : (2 : ℚ) ^ (10 : ℤ) ≤ (n : ℚ) := by
              rw [← hcast10]
              exact_mod_cast hn1
            exact mul_le_mul_of_nonneg_right h10 (le_of_lt (zpow_pos two_pos _))
    · calc (n : ℚ) * (2 : ℚ) ^ (e - 10) < (2 : ℚ) ^ (11 : ℤ) * (2 : ℚ) ^ (e - 10) := by
            have h11 : (n : ℚ) < (2 : ℚ) ^ (11 : ℤ) := by
              rw [← hcast11]
              exact_mod_cast hn2
            exact mul_lt_mul_of_pos_right h11 (zpow_pos two_pos _)
        _ = (2 : ℚ) ^ (e + 1) := by
            rw [← zpow_add₀ two_ne_zero]
            congr 1
            ring
  have henc : f16BitsOfQ ((n : ℚ) * (2 : ℚ) ^ (e - 10)) =
      (e + 15).toNat * 1024 + (n - 1024).toNat := by
    unfold f16BitsOfQ
    dsimp only
    rw [if_neg (not_le.mpr hq), hfl, if_neg (by omega), if_pos he2, qpow2_eq]
    have hdiv : (n : ℚ) * (2 : ℚ) ^ (e - 10) / (2 : ℚ) ^ (e - 10) = (n : ℚ) :=
      mul_div_cancel_right₀ _ (zpow_ne_zero _ two_ne_zero)
    rw [hdiv, Int.floor_intCast]
  rw [henc]
  rw [f16ToQ_of_fields ((e + 15).toNat) ((n - 1024).toNat) (by omega) (by omega) (by omega)]
  have hn' : ((1024 + (n - 1024).toNat : ℕ) : ℚ) = (n : ℚ) := by
    have hz : ((1024 + (n - 1024).toNat : ℕ) : ℤ) = n := by omega
    exact_mod_cast hz
  rw [hn']
  have hEe : (((e + 15).toNat : ℕ) : ℤ) = e + 15 := Int.toNat_of_nonneg (by omega)
  congr 1
  congr 1
  rw [hEe]
  ring

lemma round16_of_pos (f : ℚ) (hf : 0 < f) (he : -14 ≤ floorLog2 f) :
    round16 f = (rnEven (f / (2 : ℚ) ^ (floorLog2 f - 10)) : ℚ) *
      (2 : ℚ) ^ (floorLog2 f - 10) := by
  have h := roundFP_of_pos 11 (-24) f hf
  have hqe : max (floorLog2 f - (((11 : ℕ) : ℤ) - 1)) (-24) = floorLog2 f - 10 := by
    have hc : ((11 : ℕ) : ℤ) = 11 := by norm_num
    rw [hc]
    exact max_eq_left (by omega)
  rw [hqe] at h
  exact h

lemma floorLog2_bounds_of_mem (f : ℚ) (h1 : (2 : ℚ) ^ (-14 : ℤ) ≤ f) (h2 : f ≤ 1) :
    -14 ≤ floorLog2 f ∧ floorLog2 f ≤ 0 := by
  have hf : 0 < f := lt_of_lt_of_le (zpow_pos two_pos _) h1
  obtain ⟨s1, s2⟩ := floorLog2_spec f hf
  constructor
  · by_contra hc
    push_neg at hc
    have : f < (2 : ℚ) ^ (-14 : ℤ) := by
      calc f < (2 : ℚ) ^ (floorLog2 f + 1) := s2
        _ ≤ (2 : ℚ) ^ (-14 : ℤ) := zpow_le_zpow_right₀ one_le_two (by omega)
    linarith
  · by_contra hc
    push_neg at hc
    have h1' : (2 : ℚ) ^ (1 : ℤ) ≤ (2 : ℚ) ^ floorLog2 f :=
      zpow_le_zpow_right₀ one_le_two (by omega)
    have : (2 : ℚ) ^ (1 : ℤ) ≤ f := le_trans h1' s1
    have h2' : (2 : ℚ) ^ (1 : ℤ) = 2 := by norm_num
    linarith

lemma decode_encode_round16 (f : ℚ) (h1 : (2 : ℚ) ^ (-14 : ℤ) ≤ f) (h2 : f ≤ 1) :
    f16ToQ (f16BitsOfQ (round16 f)) = round16 f := by
  have hf : 0 < f := lt_of_lt_of_le (zpow_pos two_pos _) h1
  obtain ⟨he1, he2⟩ := floorLog2_bounds_of_mem f h1 h2
  obtain ⟨s1, s2⟩ := floorLog2_spec f hf
  have hpow : (0 : ℚ) < (2 : ℚ) ^ (floorLog2 f - 10) := zpow_pos two_pos _
  have hcast10 : ((2 ^ 10 : ℤ) : ℚ) = (2 : ℚ) ^ (10 : ℤ) := by
    push_cast
    rw [show ((10 : ℤ)) = ((10 : ℕ) : ℤ) by norm_num, zpow_natCast]
    norm_num
  have hcast11 : ((2 ^ 11 : ℤ) : ℚ) = (2 : ℚ) ^ (11 : ℤ) := by
    push_cast
    rw [show ((11 : ℤ)) = ((11 : ℕ) : ℤ) by norm_num, zpow_natCast]
    norm_num
  have hlow : ((2 ^ 10 : ℤ) : ℚ) ≤ f / (2 : ℚ) ^ (floorLog2 f - 10) := by
    rw [le_div_iff₀ hpow, hcast10]
    calc (2 : ℚ) ^ (10 : ℤ) * (2 : ℚ) ^ (floorLog2 f - 10) = (2 : ℚ) ^ floorLog2 f := by
          rw [← zpow_add₀ two_ne_zero]
          congr 1
          ring
      _ ≤ f := s1
  have hhigh : f / (2 : ℚ) ^ (floorLog2 f - 10) < ((2 ^ 11 : ℤ) : ℚ) := by
    rw [div_lt_iff₀ hpow, hcast11]
    calc f < (2 : ℚ) ^ (floorLog2 f + 1) := s2
      _ = (2 : ℚ) ^ (11 : ℤ) * (2 : ℚ) ^ (floorLog2 f - 10) := by
          rw [← zpow_add₀ two_ne_zero]
          congr 1
          ring
  obtain ⟨hn1, hn2⟩ := rnEven_bounds _ _ _ hlow hhigh
  have hr16 := round16_of_pos f hf he1
  rcases lt_or_eq_of_le hn2 with hn2' | hn2'
  · rw [hr16]
    exact f16_roundtrip_normal _ (floorLog2 f) hn1 hn2' he1 (by omega)
  · rw [hr16, hn2']
    have hkey : ((2 ^ 11 : ℤ) : ℚ) * (2 : ℚ) ^ (floorLog2 f - 10) =
        ((2 ^ 10 : ℤ) : ℚ) * (2 : ℚ) ^ (floorLog2 f + 1 - 10) := by
      rw [hcast10, hcast11, ← zpow_add₀ two_ne_zero, ← zpow_add₀ two_ne_zero]
      congr 1
      ring
    rw [hkey]
    exact f16_roundtrip_normal (2 ^ 10) (floorLog2 f + 1) (by norm_num) (by norm_num)
      (by omega) (by omega)

/-! ## Claim theorems -/

/-- C1 (code bug evidence): with a 5-pixel-wide, 1-pixel-high raster whose
red channel is `65535` at pixel `(3, 0)` and `0` elsewhere, and
`chunk_width = 3`, ingestion produces a trailing chunk with
`width_range = 3..5`, and the quantized value of pixel `(3, 0)` (bit
pattern `15360`, i.e. `f16` `1.0`) is stored at local index `1` of that
chunk's grid, not at the claimed local coordinates
`(x - x_start, y - y_start) = (0, 0)`: the code computes
`x % chunk.width() = 3 % 2 = 1` instead of `x - x_start = 0`. -/
theorem c1_partial_tile_write_eval :
    Dem.load_chunks_from_image
      { width := 5, height := 1, pix := fun x _ => if x = 3 then 65535 else 0 } 3 1
      { width := 5, height := 1, meters_per_pixel := 1, max_elevation := 1 } =
    some [{ width_range_start := 0, width_range_end := 3, height_range_start := 0,
            height_range_end := 1,
            profile := { width := 5, height := 1, meters_per_pixel := 1, max_elevation := 1 },
            dem := [0, 0, 0] },
          { width_range_start := 3, width_range_end := 5, height_range_start := 0,
            height_range_end := 1,
            profile := { width := 5, height := 1, meters_per_pixel := 1, max_elevation := 1 },
            dem := [0, 15360] }] ∧
    quantBits 65535 = 15360 := by
  constructor
  · with_unfolding_all rfl
  · with_unfolding_all rfl

/-- C2 (counterexample): with `total_width = 2^32 - 1` and
`chunk_width = 2^31` (both positive `u32` values), the `u32` computation
`(tx + 1) * chunk_width` overflows for the second tile, so its rectangle is
empty and pixel `2^31` of the raster is covered by no tile: the union of
the tile rectangles is not `[0, total_width)`. -/
theorem c2_tile_cover_overflow_cex :
    divCeil 4294967295 2147483648 = 2 ∧
    ¬(tile_start 0 2147483648 ≤ 2147483648 ∧
      2147483648 < tile_end 4294967295 0 2147483648) ∧
    ¬(tile_start 1 2147483648 ≤ 2147483648 ∧
      2147483648 < tile_end 4294967295 1 2147483648) :=
  of_decide_eq_true (by with_unfolding_all rfl)

/-- C2 (amended): provided the tile-end computations do not overflow `u32`
(`divCeil total chunk * chunk < 2^32` on each axis), every raster pixel
lies in exactly one tile rectangle, and every tile rectangle lies inside
the raster bounds: the tiles are pairwise disjoint and their union is
exactly `[0, total_width) × [0, total_height)`. -/
theorem c2_tiling_cover_amended (W H cw ch : ℕ) (hcw : 0 < cw) (hch : 0 < ch)
    (hovx : divCeil W cw * cw < 4294967296) (hovy : divCeil H ch * ch < 4294967296) :
    (∀ px py, px < W → py < H →
      ∃! t : ℕ × ℕ, t.1 < divCeil W cw ∧ t.2 < divCeil H ch ∧
        tile_start t.1 cw ≤ px ∧ px < tile_end W t.1 cw ∧
        tile_start t.2 ch ≤ py ∧ py < tile_end H t.2 ch) ∧
    (∀ tx ty px py, tx < divCeil W cw → ty < divCeil H ch →
      tile_start tx cw ≤ px → px < tile_end W tx cw →
      tile_start ty ch ≤ py → py < tile_end H ty ch → px < W ∧ py < H) := by
  constructor
  · intro px py hpx hpy
    obtain ⟨hx1, hx2, hx3⟩ := tile_axis_cover W cw px hcw hovx hpx
    obtain ⟨hy1, hy2, hy3⟩ := tile_axis_cover H ch py hch hovy hpy
    refine ⟨(px / cw, py / ch), ⟨hx1, hy1, hx2, hx3, hy2, hy3⟩, ?_⟩
    rintro ⟨tx, ty⟩ ⟨htx, hty, ha, hb, hc, hd⟩
    have e1 : tx = px / cw := tile_axis_unique W cw tx px hcw hovx htx ha hb
    have e2 : ty = py / ch := tile_axis_unique H ch ty py hch hovy hty hc hd
    rw [e1, e2]
  · intro tx ty px py _ _ _ hb _ hd
    exact ⟨tile_subset_axis W cw tx px hb, tile_subset_axis H ch ty py hd⟩

/-- Witness for C2 (amended) at
`W = 5, H = 3, cw = 2, ch = 2, pixel (4, 2)`. -/
theorem c2_tiling_cover_amended_witness :
    ∃! t : ℕ × ℕ, t.1 < divCeil 5 2 ∧ t.2 < divCeil 3 2 ∧
      tile_start t.1 2 ≤ 4 ∧ 4 < tile_end 5 t.1 2 ∧
      tile_start t.2 2 ≤ 2 ∧ 2 < tile_end 3 t.2 2 :=
  (c2_tiling_cover_amended 5 3 2 2 (by norm_num) (by norm_num)
    (of_decide_eq_true (by with_unfolding_all rfl))
    (of_decide_eq_true (by with_unfolding_all rfl))).1 4 2 (by norm_num) (by norm_num)

/-- C4 (counterexample): on a 2×2 chunk (`max_elevation = 1`) whose grid is
`[0, 0, 13312, 0]` (`13312` is the `f16` bit pattern of `0.25`),
`get_elevation(2, 0)` has `x = 2 ≥ width = 2` yet does not fail: the
flattened index `0 * 2 + 2 = 2` is still inside the grid, and the call
silently returns the elevation stored at cell `(0, 1)`. -/
theorem c4_get_elevation_silent_read_cex :
    (({ width_range_start := 0, width_range_end := 2, height_range_start := 0,
        height_range_end := 2,
        profile := { width := 2, height := 2, meters_per_pixel := 1, max_elevation := 1 },
        dem := [0, 0, 13312, 0] } : Dem)).width = 2 ∧
    (({ width_range_start := 0, width_range_end := 2, height_range_start := 0,
        height_range_end := 2,
        profile := { width := 2, height := 2, meters_per_pixel := 1, max_elevation := 1 },
        dem := [0, 0, 13312, 0] } : Dem)).get_elevation 2 0 = some (1 / 4) ∧
    (({ width_range_start := 0, width_range_end := 2, height_range_start := 0,
        height_range_end := 2,
        profile := { width := 2, height := 2, meters_per_pixel := 1, max_elevation := 1 },
        dem := [0, 0, 13312, 0] } : Dem)).get_elevation 0 1 = some (1 / 4) :=
  of_decide_eq_true (by with_unfolding_all rfl)

/-- C4 (amended): `get_elevation(x, y)` fails (panics on the grid index)
exactly when the `u32`-wrapped flattened index `y * width + x` is at or
past the grid length; out-of-range `x` or `y` whose flattened index stays
below the length silently reads another in-range cell. -/
theorem c4_get_elevation_fail_iff (d : Dem) (x y : ℕ) :
    d.get_elevation x y = none ↔
      d.dem.length ≤ u32add (u32mul y d.width) x := by
  unfold Dem.get_elevation
  rw [Option.map_eq_none', List.get?_eq_none]

/-- C5 (counterexample): a decoded 2×2 raster with a profile configured for
width 3 makes ingestion abort via the failed `assert_eq!` (modelled as
`none`): no `DimensionMismatch` error value is returned to the caller —
there is no recoverable-error path for this condition in the code. -/
theorem c5_dimension_mismatch_panic_cex :
    Dem.load_chunks_from_image { width := 2, height := 2, pix := fun _ _ => 0 } 1 1
      { width := 3, height := 2, meters_per_pixel := 1, max_elevation := 1 } =
      none := by
  with_unfolding_all rfl

/-- C5 (amended): when the decoded raster's dimensions differ from the
profile's, ingestion panics on `assert_eq!` (an abort, not a recoverable
error value) and no chunk set is returned. -/
theorem c5_dimension_mismatch_panics (img : Image) (cw ch : ℕ)
    (profile : DemProfile)
    (h : img.width ≠ profile.width ∨ img.height ≠ profile.height) :
    Dem.load_chunks_from_image img cw ch profile = none := by
  unfold Dem.load_chunks_from_image
  rw [if_neg (by tauto)]

/-- Witness for C5 (amended). -/
theorem c5_dimension_mismatch_panics_witness :
    Dem.load_chunks_from_image { width := 4, height := 4, pix := fun _ _ => 7 } 2 2
      { width := 4, height := 5, meters_per_pixel := 1, max_elevation := 1 } =
      none :=
  c5_dimension_mismatch_panics _ 2 2 _ (Or.inr (by norm_num))

lemma f32ToU32_nonpos (q : ℚ) (hq : q ≤ 0) : f32ToU32 q = 0 := by
  unfold f32ToU32
  by_cases h : q < 0
  · rw [if_pos h]
  · rw [if_neg h]
    have hq0 : q = 0 := le_antisymm hq (not_lt.mp h)
    rw [hq0]
    norm_num

lemma fx_width_one (d : Dem) (hw : d.width = 1) (u : ℚ) : d.fx u = ((0 : ℕ) : ℚ) := by
  unfold Dem.fx
  rw [hw]
  have h0 : u32sub 1 1 = 0 := by
    rw [u32sub_eq 1 1 (by omega) (by omega)]
  rw [h0]
  unfold natToF32
  rw [Nat.cast_zero, round32_zero]
  unfold f32mul
  rw [mul_zero, round32_zero]

lemma fy_height_one (d : Dem) (hh : d.height = 1) (v : ℚ) : d.fy v = ((0 : ℕ) : ℚ) := by
  unfold Dem.fy
  rw [hh]
  have h0 : u32sub 1 1 = 0 := by
    rw [u32sub_eq 1 1 (by omega) (by omega)]
  rw [h0]
  unfold natToF32
  rw [Nat.cast_zero, round32_zero]
  unfold f32mul
  rw [mul_zero, round32_zero]

lemma fy_zero (d : Dem) : d.fy 0 = 0 := by
  unfold Dem.fy f32mul
  rw [zero_mul, round32_zero]

lemma natToF32_nonneg (n : ℕ) : 0 ≤ natToF32 n :=
  roundFP_nonneg 24 (-149) _ (by positivity)

/-- C6 (amended): when `width - 1` and `height - 1` are powers of two (at
most `2^24`), the `f32` computation `x / (width-1) * (width-1)` is exact,
the bilinear weights collapse to `0`, and sampling at
`uv = (x/(width-1), y/(height-1))` returns exactly `get_elevation(x, y)`. -/
theorem c6_bilinear_exact_at_grid_pow2 (d : Dem) (a b x y : ℕ)
    (hwa : d.width = 2 ^ a + 1) (hhb : d.height = 2 ^ b + 1)
    (ha : a ≤ 24) (hb : b ≤ 24)
    (hx : x < d.width) (hy : y < d.height)
    (hlen : d.dem.length = d.width * d.height)
    (hwh : d.width * d.height < 4294967296)
    (hfin : ∀ v ∈ d.dem, f16Finite v) :
    d.sample_elevation_uv (f32div (natToF32 x) (natToF32 (u32sub d.width 1)))
      (f32div (natToF32 y) (natToF32 (u32sub d.height 1))) =
    d.get_elevation x y := by
  have h2a : (2 : ℕ) ^ a ≤ 2 ^ 24 := Nat.pow_le_pow_right (by norm_num) ha
  have h2b : (2 : ℕ) ^ b ≤ 2 ^ 24 := Nat.pow_le_pow_right (by norm_num) hb
  have h24 : (2 : ℕ) ^ 24 = 16777216 := by norm_num
  apply sample_at_grid d _ _ x y
  · exact fx_div_pow d x a hwa ha (by omega)
  · exact fy_div_pow d y b hhb hb (by omega)
  · exact hx
  · exact hy
  · omega
  · omega
  · exact hlen
  · exact hwh
  · exact hfin

/-- C7 (amended): for a well-formed chunk whose dimensions are at most
`2^24 + 1` (so `width - 1` and `height - 1` convert exactly to `f32`),
sampling at `uv = (1, 1)` returns exactly
`get_elevation(width - 1, height - 1)` and performs no out-of-bounds grid
access (it returns a value). -/
theorem c7_sample_corner_clamped (d : Dem)
    (hw1 : 1 ≤ d.width) (hh1 : 1 ≤ d.height)
    (hw : d.width ≤ 16777217) (hh : d.height ≤ 16777217)
    (hlen : d.dem.length = d.width * d.height)
    (hwh : d.width * d.height < 4294967296)
    (hfin : ∀ v ∈ d.dem, f16Finite v) :
    d.sample_elevation_uv 1 1 = d.get_elevation (d.width - 1) (d.height - 1) ∧
    ∃ r, d.sample_elevation_uv 1 1 = some r := by
  have heq := sample_at_grid d 1 1 (d.width - 1) (d.height - 1)
    (fx_one d hw1 hw) (fy_one d hh1 hh) (by omega) (by omega) hw hh hlen hwh hfin
  refine ⟨heq, ?_⟩
  rw [heq, get_elevation_eq_of_lt d _ _ (by omega) (by omega) hlen hwh]
  exact ⟨_, rfl⟩

/-- Witness for C7 (amended) on a concrete 2×2 chunk. -/
theorem c7_sample_corner_clamped_witness :
    ({ width_range_start := 0, width_range_end := 2, height_range_start := 0,
       height_range_end := 2,
       profile := { width := 2, height := 2, meters_per_pixel := 1, max_elevation := 1 },
       dem := [0, 0, 0, 15360] } : Dem).sample_elevation_uv 1 1 =
      ({ width_range_start := 0, width_range_end := 2, height_range_start := 0,
         height_range_end := 2,
         profile := { width := 2, height := 2, meters_per_pixel := 1, max_elevation := 1 },
         dem := [0, 0, 0, 15360] } : Dem).get_elevation 1 1 :=
  (c7_sample_corner_clamped _
    (of_decide_eq_true (by with_unfolding_all rfl))
    (of_decide_eq_true (by with_unfolding_all rfl))
    (of_decide_eq_true (by with_unfolding_all rfl))
    (of_decide_eq_true (by with_unfolding_all rfl))
    (of_decide_eq_true (by with_unfolding_all rfl))
    (of_decide_eq_true (by with_unfolding_all rfl))
    (of_decide_eq_true (by with_unfolding_all rfl))).1


/-- C6 (counterexample): on a 14×2 chunk, sampling at
`uv = (7/(width-1), 0/(height-1))` (with both divisions performed in `f32`
as the claim prescribes) does not return `get_elevation(7, 0)`:
`fl(fl(7/13) * 13) = 7 + 2^-21`, so the bilinear blend mixes texel `(8, 0)`
in with weight `2^-21` and returns `2097151/2097152` instead of `1`. -/
theorem c6_bilinear_grid_exactness_cex :
    cexDem6.width = 14 ∧ cexDem6.height = 2 ∧
    cexDem6.sample_elevation_uv
        (f32div (natToF32 7) (natToF32 (u32sub cexDem6.width 1)))
        (f32div (natToF32 0) (natToF32 (u32sub cexDem6.height 1))) =
      some (2097151 / 2097152) ∧
    cexDem6.get_elevation 7 0 = some 1 := by
  have hu : f32div (natToF32 7) (natToF32 (u32sub cexDem6.width 1)) =
      4516943 / 8388608 := by with_unfolding_all rfl
  have hv : f32div (natToF32 0) (natToF32 (u32sub cexDem6.height 1)) = 0 := by
    with_unfolding_all rfl
  refine ⟨by with_unfolding_all rfl, by with_unfolding_all rfl, ?_, by with_unfolding_all rfl⟩
  rw [hu, hv]
  with_unfolding_all rfl

/-- Witness for C6 (amended) on a concrete 2×2 chunk (`a = b = 0`). -/
theorem c6_bilinear_exact_at_grid_pow2_witness :
    ({ width_range_start := 0, width_range_end := 2, height_range_start := 0,
       height_range_end := 2,
       profile := { width := 2, height := 2, meters_per_pixel := 1, max_elevation := 1 },
       dem := [0, 15360, 0, 0] } : Dem).sample_elevation_uv
        (f32div (natToF32 1) (natToF32 (u32sub 2 1)))
        (f32div (natToF32 0) (natToF32 (u32sub 2 1))) =
      ({ width_range_start := 0, width_range_end := 2, height_range_start := 0,
         height_range_end := 2,
         profile := { width := 2, height := 2, meters_per_pixel := 1, max_elevation := 1 },
         dem := [0, 15360, 0, 0] } : Dem).get_elevation 1 0 :=
  c6_bilinear_exact_at_grid_pow2 _ 0 0 1 0
    (of_decide_eq_true (by with_unfolding_all rfl))
    (of_decide_eq_true (by with_unfolding_all rfl))
    (by norm_num) (by norm_num)
    (of_decide_eq_true (by with_unfolding_all rfl))
    (of_decide_eq_true (by with_unfolding_all rfl))
    (of_decide_eq_true (by with_unfolding_all rfl))
    (of_decide_eq_true (by with_unfolding_all rfl))
    (of_decide_eq_true (by with_unfolding_all rfl))


/-- C7 (counterexample): for a chunk of width `2^24 + 4`, the `u32`-to-`f32`
conversion of `width - 1 = 2^24 + 3` rounds up to `2^24 + 4 = width`, so
sampling at `uv = (1, 1)` reads column `width` — an out-of-bounds access
(a panic, modelled as `none`) — while `get_elevation(width-1, height-1)`
returns `some 0`. -/
theorem c7_sample_corner_large_width_cex :
    cexDem7.sample_elevation_uv 1 1 = none ∧
    cexDem7.get_elevation (cexDem7.width - 1) (cexDem7.height - 1) = some 0 := by
  constructor
  · apply sample_none_of_first_oob
    have h1 : u32add (u32mul (cexDem7.y0 1) cexDem7.width) (cexDem7.x0 1) =
        16777220 := by
      with_unfolding_all rfl
    rw [h1]
    have h2 : cexDem7.dem = List.replicate 16777220 0 := rfl
    rw [h2, List.length_replicate]
  · unfold Dem.get_elevation
    have hidx : u32add (u32mul (cexDem7.height - 1) cexDem7.width)
        (cexDem7.width - 1) = 16777219 := by
      with_unfolding_all rfl
    rw [hidx]
    have h2 : cexDem7.dem.get? 16777219 = some 0 := by
      show (List.replicate 16777220 0).get? 16777219 = some 0
      rw [List.get?_eq_getElem?, List.getElem?_replicate_of_lt (by norm_num)]
    rw [h2]
    show some (f32mul (f16ToQ 0) cexDem7.profile.max_elevation) = some 0
    with_unfolding_all rfl

/-- C8: on a chunk with `width = 1`, for any `u` whatsoever (the
degenerate axis makes `fx = u * 0 = 0`, with no division by zero and no
NaN since every value stays an exact rational `f32`), sampling returns
exactly `get_elevation(0, y)` for the row `y` that `v` resolves to
(`fy = y`); symmetrically for `height = 1` along the other axis. -/
theorem c8_degenerate_axis_single_lookup :
    (∀ (d : Dem) (u v : ℚ) (y : ℕ), d.width = 1 →
      d.fy v = (y : ℚ) → y < d.height → d.height ≤ 16777217 →
      d.dem.length = d.width * d.height → d.width * d.height < 4294967296 →
      (∀ w ∈ d.dem, f16Finite w) →
      d.sample_elevation_uv u v = d.get_elevation 0 y) ∧
    (∀ (d : Dem) (u v : ℚ) (x : ℕ), d.height = 1 →
      d.fx u = (x : ℚ) → x < d.width → d.width ≤ 16777217 →
      d.dem.length = d.width * d.height → d.width * d.height < 4294967296 →
      (∀ w ∈ d.dem, f16Finite w) →
      d.sample_elevation_uv u v = d.get_elevation x 0) := by
  constructor
  · intro d u v y hw hfy hy hh hlen hwh hfin
    exact sample_at_grid d u v 0 y (fx_width_one d hw u) hfy (by omega) hy
      (by omega) hh hlen hwh hfin
  · intro d u v x hh hfx hx hw hlen hwh hfin
    exact sample_at_grid d u v x 0 hfx (fy_height_one d hh v) hx (by omega)
      hw (by omega) hlen hwh hfin

/-- Witness for C8 on a concrete 1×3 chunk sampled at `u = 5`, `v = 1/2`
(which resolves to row 1). -/
theorem c8_degenerate_axis_single_lookup_witness :
    ({ width_range_start := 0, width_range_end := 1, height_range_start := 0,
       height_range_end := 3,
       profile := { width := 1, height := 3, meters_per_pixel := 1, max_elevation := 1 },
       dem := [0, 15360, 0] } : Dem).sample_elevation_uv 5 (1 / 2) =
      ({ width_range_start := 0, width_range_end := 1, height_range_start := 0,
         height_range_end := 3,
         profile := { width := 1, height := 3, meters_per_pixel := 1, max_elevation := 1 },
         dem := [0, 15360, 0] } : Dem).get_elevation 0 1 :=
  c8_degenerate_axis_single_lookup.1 _ 5 (1 / 2) 1
    (of_decide_eq_true (by with_unfolding_all rfl))
    (of_decide_eq_true (by with_unfolding_all rfl))
    (of_decide_eq_true (by with_unfolding_all rfl))
    (of_decide_eq_true (by with_unfolding_all rfl))
    (of_decide_eq_true (by with_unfolding_all rfl))
    (of_decide_eq_true (by with_unfolding_all rfl))
    (of_decide_eq_true (by with_unfolding_all rfl))

/-- C9 (counterexample): the fraction `f = 2^-25` is an exact `f32` value
in `[0, 1]`, yet quantizing it to `f16` (round-to-nearest-even) gives `0`
— a relative error of `1`, far beyond `1/2048`.  Below the `f16` normal
range the relative-error bound fails. -/
theorem c9_quantization_tiny_fraction_cex :
    round32 (1 / 2 ^ 25) = 1 / 2 ^ 25 ∧
    (0 : ℚ) ≤ 1 / 2 ^ 25 ∧ (1 / 2 ^ 25 : ℚ) ≤ 1 ∧
    f16ToQ (f16BitsOfQ (round16 (1 / 2 ^ 25))) = 0 ∧
    ¬(|f16ToQ (f16BitsOfQ (round16 (1 / 2 ^ 25))) - 1 / 2 ^ 25| ≤
        (1 / 2 ^ 25 : ℚ) / 2048) :=
  ⟨by with_unfolding_all rfl,
   of_decide_eq_true (by with_unfolding_all rfl),
   of_decide_eq_true (by with_unfolding_all rfl),
   by with_unfolding_all rfl,
   of_decide_eq_true (by with_unfolding_all rfl)⟩

/-- C9 (amended): for every fraction `f` in the `f16` normal range
`[2^-14, 1]`, encoding `f` to a half-precision bit pattern with
round-to-nearest (as ingestion does) and decoding it back (as sampling
does) yields a value within relative error `1/2048` of `f`. -/
theorem c9_quantization_roundtrip_bound (f : ℚ)
    (h1 : (2 : ℚ) ^ (-14 : ℤ) ≤ f) (h2 : f ≤ 1) :
    |f16ToQ (f16BitsOfQ (round16 f)) - f| ≤ f / 2048 := by
  rw [decode_encode_round16 f h1 h2]
  have hf : 0 < f := lt_of_lt_of_le (zpow_pos two_pos _) h1
  obtain ⟨he1, _⟩ := floorLog2_bounds_of_mem f h1 h2
  obtain ⟨s1, _⟩ := floorLog2_spec f hf
  have herr := roundFP_err 11 (-24) f hf
  have hqe : max (floorLog2 f - (((11 : ℕ) : ℤ) - 1)) (-24) = floorLog2 f - 10 := by
    have hc : ((11 : ℕ) : ℤ) = 11 := by norm_num
    rw [hc]
    exact max_eq_left (by omega)
  rw [hqe] at herr
  have hstep : (2 : ℚ) ^ (floorLog2 f - 10) / 2 = (2 : ℚ) ^ (floorLog2 f - 11) := by
    rw [div_eq_iff (two_ne_zero)]
    calc (2 : ℚ) ^ (floorLog2 f - 10)
        = (2 : ℚ) ^ (floorLog2 f - 11) * (2 : ℚ) ^ (1 : ℤ) := by
          rw [← zpow_add₀ two_ne_zero]
          congr 1
          ring
      _ = (2 : ℚ) ^ (floorLog2 f - 11) * 2 := by norm_num
  have hsplit : (2 : ℚ) ^ (floorLog2 f - 11) =
      (2 : ℚ) ^ floorLog2 f * (2 : ℚ) ^ (-11 : ℤ) := by
    rw [← zpow_add₀ two_ne_zero]
    congr 1
  have h2048 : (2 : ℚ) ^ (-11 : ℤ) = 1 / 2048 := by
    rw [zpow_neg]
    rw [show ((11 : ℤ)) = ((11 : ℕ) : ℤ) by norm_num, zpow_natCast]
    norm_num
  calc |round16 f - f| ≤ (2 : ℚ) ^ (floorLog2 f - 10) / 2 := herr
    _ = (2 : ℚ) ^ floorLog2 f * (2 : ℚ) ^ (-11 : ℤ) := by rw [hstep, hsplit]
    _ ≤ f * (2 : ℚ) ^ (-11 : ℤ) :=
        mul_le_mul_of_nonneg_right s1 (le_of_lt (zpow_pos two_pos _))
    _ = f / 2048 := by
        rw [h2048]
        ring_nf

/-- Witness for C9 (amended) at `f = 1/2`. -/
theorem c9_quantization_roundtrip_bound_witness :
    |f16ToQ (f16BitsOfQ (round16 (1 / 2))) - 1 / 2| ≤ (1 / 2 : ℚ) / 2048 :=
  c9_quantization_roundtrip_bound (1 / 2)
    (of_decide_eq_true (by with_unfolding_all rfl))
    (of_decide_eq_true (by with_unfolding_all rfl))

/-- C10 (implicit asymmetry of out-of-range `uv`): on a well-formed chunk
(sampled along `v = 0` so that only the `u` axis is out of range), a
negative `u` does not fail — the negative `fx` saturates `x0` to `0` in
the `f32`-to-`u32` cast and sampling returns a value — while a `u` large
enough that `⌊fx⌋` reaches the flattened index `width * height` makes the
first grid read fail (a panic, `none`).  Neither direction is clamped to
the edge consistently, and only one of them errors. -/
theorem c10_uv_out_of_range_asymmetry (d : Dem) (u : ℚ)
    (hw2 : 2 ≤ d.width) (hh1 : 1 ≤ d.height)
    (hlen : d.dem.length = d.width * d.height)
    (hwh : d.width * d.height < 4294967296) :
    (u < 0 → ∃ r, d.sample_elevation_uv u 0 = some r) ∧
    ((d.width * d.height : ℤ) ≤ ⌊d.fx u⌋ → d.sample_elevation_uv u 0 = none) := by
  have hwd : d.width < 4294967296 := by
    have h1 : d.width * 1 ≤ d.width * d.height := Nat.mul_le_mul_left d.width hh1
    rw [Nat.mul_one] at h1
    omega
  have hy0 : d.y0 0 = 0 := by
    unfold Dem.y0
    rw [fy_zero]
    exact f32ToU32_nonpos 0 le_rfl
  constructor
  · intro hu
    have hfx_le : d.fx u ≤ 0 := by
      unfold Dem.fx f32mul
      apply roundFP_nonpos
      exact mul_nonpos_of_nonpos_of_nonneg (le_of_lt hu) (natToF32_nonneg _)
    have hx0 : d.x0 u = 0 := by
      unfold Dem.x0
      exact f32ToU32_nonpos _ hfx_le
    have hx1 : d.x1 u = 1 := by
      unfold Dem.x1
      rw [hx0, u32add_eq 0 1 (by norm_num), u32sub_eq d.width 1 (by omega) hwd]
      omega
    have hyd : d.height < 4294967296 := by
      have h1 : 1 * d.height ≤ d.width * d.height := Nat.mul_le_mul_right d.height (by omega)
      rw [Nat.one_mul] at h1
      omega
    have hy1lt : d.y1 0 < d.height := by
      unfold Dem.y1
      rw [hy0, u32add_eq 0 1 (by norm_num), u32sub_eq d.height 1 (by omega) hyd]
      omega
    have hs := sample_eq_bilerp d u 0 hlen hwh (by omega) (by rw [hx1]; omega)
      (by rw [hy0]; omega) hy1lt
    exact ⟨_, hs⟩
  · intro hfl
    apply sample_none_of_first_oob
    have hm : u32mul (d.y0 0) d.width = 0 := by
      rw [hy0, u32mul_eq 0 _ (by simpa using hwd)]
      exact Nat.zero_mul _
    have hfxpos : ¬(d.fx u < 0) := by
      intro hc
      have h1 : ⌊d.fx u⌋ ≤ 0 := by
        have := Int.floor_nonpos (le_of_lt hc)
        omega
      have h2 : (0 : ℤ) < (d.width * d.height : ℤ) := by
        have : 0 < d.width * d.height := by positivity
        exact_mod_cast this
      omega
    have hx0ge : d.width * d.height ≤ d.x0 u := by
      unfold Dem.x0 f32ToU32
      rw [if_neg hfxpos]
      have h1 : (d.width * d.height : ℤ) ≤ ⌊d.fx u⌋ := hfl
      have h2 : d.width * d.height ≤ ⌊d.fx u⌋.toNat := by omega
      omega
    have hx0lt : d.x0 u < 4294967296 := by
      unfold Dem.x0 f32ToU32
      rw [if_neg hfxpos]
      omega
    rw [hm, hlen]
    calc d.width * d.height ≤ d.x0 u := hx0ge
      _ = u32add 0 (d.x0 u) := by
          rw [u32add_eq 0 _ (by omega)]
          omega


/-- Witness for C10: on the concrete 2×2 chunk, `u = -1` returns a value
while `u = 9` (flattened index `9 ≥ 4`) panics. -/
theorem c10_uv_out_of_range_asymmetry_witness :
    (∃ r, cexDem10.sample_elevation_uv (-1) 0 = some r) ∧
    cexDem10.sample_elevation_uv 9 0 = none := by
  constructor
  · exact (c10_uv_out_of_range_asymmetry cexDem10 (-1)
      (of_decide_eq_true (by with_unfolding_all rfl))
      (of_decide_eq_true (by with_unfolding_all rfl))
      (of_decide_eq_true (by with_unfolding_all rfl))
      (of_decide_eq_true (by with_unfolding_all rfl))).1 (by norm_num)
  · exact (c10_uv_out_of_range_asymmetry cexDem10 9
      (of_decide_eq_true (by with_unfolding_all rfl))
      (of_decide_eq_true (by with_unfolding_all rfl))
      (of_decide_eq_true (by with_unfolding_all rfl))
      (of_decide_eq_true (by with_unfolding_all rfl))).2
      (of_decide_eq_true (by with_unfolding_all rfl))

/-- C3 (amended): provided none of the `u32` tile computations overflow
(`divCeil W cw * cw < 2^32`, `divCeil H ch * ch < 2^32`,
`cw * ch < 2^32`, `numy * numx < 2^32`), ingestion returns exactly
`ceil(H/ch) * ceil(W/cw)` chunks in row-major tile order (`ty` outer), and
the chunk at tile index `(tx, ty)` has offset `(tx*cw, ty*ch)` and size
`(min((tx+1)*cw, W) - tx*cw, min((ty+1)*ch, H) - ty*ch)`. -/
theorem c3_load_chunks_layout (img : Image) (cw ch : ℕ) (profile : DemProfile)
    (hW : img.width = profile.width) (hH : img.height = profile.height)
    (hcw : 0 < cw) (hch : 0 < ch)
    (hovx : divCeil img.width cw * cw < 4294967296)
    (hovy : divCeil img.height ch * ch < 4294967296)
    (hcc : cw * ch < 4294967296)
    (hnn : divCeil img.height ch * divCeil img.width cw < 4294967296) :
    ∃ cs, Dem.load_chunks_from_image img cw ch profile = some cs ∧
      cs.length = divCeil img.height ch * divCeil img.width cw ∧
      ∀ tx ty, tx < divCeil img.width cw → ty < divCeil img.height ch →
        ∃ c, cs.get? (ty * divCeil img.width cw + tx) = some c ∧
          c.width_range_start = tx * cw ∧
          c.width_range_end = min ((tx + 1) * cw) img.width ∧
          c.height_range_start = ty * ch ∧
          c.height_range_end = min ((ty + 1) * ch) img.height ∧
          c.width = min ((tx + 1) * cw) img.width - tx * cw ∧
          c.height = min ((ty + 1) * ch) img.height - ty * ch ∧
          c.profile = profile := by
  obtain ⟨cs, hcs, hlen, hk⟩ := load_chunks_ok img cw ch profile hW hH hcw hch
    hovx hovy hcc hnn
  refine ⟨cs, hcs, hlen, ?_⟩
  intro tx ty htx hty
  have hkidx : ty * divCeil img.width cw + tx <
      divCeil img.height ch * divCeil img.width cw := by
    calc ty * divCeil img.width cw + tx < ty * divCeil img.width cw +
          divCeil img.width cw := by omega
      _ = (ty + 1) * divCeil img.width cw := by ring
      _ ≤ divCeil img.height ch * divCeil img.width cw :=
          Nat.mul_le_mul_right _ (by omega)
  obtain ⟨c, hc, g1, g2, g3, g4, g5, g6, g7, g8, g9⟩ := hk _ hkidx
  have hnumx : 0 < divCeil img.width cw := by omega
  have hmod : (ty * divCeil img.width cw + tx) % divCeil img.width cw = tx := by
    rw [Nat.add_comm, Nat.add_mul_mod_self_right]
    exact Nat.mod_eq_of_lt htx
  have hdiv : (ty * divCeil img.width cw + tx) / divCeil img.width cw = ty := by
    rw [Nat.add_comm, Nat.add_mul_div_right _ _ hnumx, Nat.div_eq_of_lt htx]
    omega
  rw [hmod] at g1 g2
  rw [hdiv] at g3 g4
  have hts := tile_start_eq tx cw hcw _ htx hovx
  have hte := tile_end_eq img.width tx cw hcw _ htx hovx
  have hts2 := tile_start_eq ty ch hch _ hty hovy
  have hte2 := tile_end_eq img.height ty ch hch _ hty hovy
  have hWlt : tx * cw < img.width := (lt_divCeil_iff _ _ _ hcw).mp htx
  have hHlt : ty * ch < img.height := (lt_divCeil_iff _ _ _ hch).mp hty
  have htendb : tile_end img.width tx cw < 4294967296 := by
    rw [hte]
    have h1 : (tx + 1) * cw ≤ divCeil img.width cw * cw :=
      Nat.mul_le_mul_right cw (by omega)
    omega
  have htendb2 : tile_end img.height ty ch < 4294967296 := by
    rw [hte2]
    have h1 : (ty + 1) * ch ≤ divCeil img.height ch * ch :=
      Nat.mul_le_mul_right ch (by omega)
    omega
  refine ⟨c, hc, ?_, ?_, ?_, ?_, ?_, ?_, g5⟩
  · rw [g1, hts]
  · rw [g2, hte]
  · rw [g3, hts2]
  · rw [g4, hte2]
  · unfold Dem.width
    rw [g1, g2, hts, hte]
    have hle : tile_start tx cw ≤ tile_end img.width tx cw := by
      rw [hts, hte]
      have h1 : tx * cw ≤ (tx + 1) * cw := Nat.mul_le_mul_right cw (by omega)
      omega
    rw [hts, hte] at hle
    exact u32sub_eq _ _ hle (by rw [← hte]; exact htendb)
  · unfold Dem.height
    rw [g3, g4, hts2, hte2]
    have hle : tile_start ty ch ≤ tile_end img.height ty ch := by
      rw [hts2, hte2]
      have h1 : ty * ch ≤ (ty + 1) * ch := Nat.mul_le_mul_right ch (by omega)
      omega
    rw [hts2, hte2] at hle
    exact u32sub_eq _ _ hle (by rw [← hte2]; exact htendb2)

/-- Witness for C3 (amended) on a 5×1 raster with `chunk_width = 3`. -/
theorem c3_load_chunks_layout_witness :
    ∃ cs, Dem.load_chunks_from_image
        { width := 5, height := 1, pix := fun _ _ => 0 } 3 1
        { width := 5, height := 1, meters_per_pixel := 1, max_elevation := 1 } =
        some cs ∧
      cs.length = divCeil 1 1 * divCeil 5 3 ∧
      ∀ tx ty, tx < divCeil 5 3 → ty < divCeil 1 1 →
        ∃ c, cs.get? (ty * divCeil 5 3 + tx) = some c ∧
          c.width_range_start = tx * 3 ∧
          c.width_range_end = min ((tx + 1) * 3) 5 ∧
          c.height_range_start = ty * 1 ∧
          c.height_range_end = min ((ty + 1) * 1) 1 ∧
          c.width = min ((tx + 1) * 3) 5 - tx * 3 ∧
          c.height = min ((ty + 1) * 1) 1 - ty * 1 ∧
          c.profile =
            { width := 5, height := 1, meters_per_pixel := 1, max_elevation := 1 } :=
  c3_load_chunks_layout _ 3 1 _ rfl rfl (by norm_num) (by norm_num)
    (of_decide_eq_true (by with_unfolding_all rfl))
    (of_decide_eq_true (by with_unfolding_all rfl))
    (of_decide_eq_true (by with_unfolding_all rfl))
    (of_decide_eq_true (by with_unfolding_all rfl))


lemma cexChunksInv3 :
    chunksInv 4294967295 1 2147483648 1 cexProfile3
      (initChunks 4294967295 1 2147483648 1 cexProfile3) := by
  have hinit : initChunks 4294967295 1 2147483648 1 cexProfile3 =
      [mkChunk 4294967295 1 2147483648 1 cexProfile3 0 0,
       mkChunk 4294967295 1 2147483648 1 cexProfile3 0 1] := by
    unfold initChunks
    rfl
  constructor
  · rw [hinit]
    rfl
  · intro k hk
    rw [hinit]
    have hk2 : k < 2 := by
      rw [show divCeil 1 1 * divCeil 4294967295 2147483648 = 2 from rfl] at hk
      exact hk
    interval_cases k
    · refine ⟨mkChunk 4294967295 1 2147483648 1 cexProfile3 0 0, rfl, ?_⟩
      unfold chunkGeom
      refine ⟨rfl, rfl, rfl, rfl, rfl, ?_, ?_, ?_, ?_⟩
      · rw [show (mkChunk 4294967295 1 2147483648 1 cexProfile3 0 0).dem =
            List.replicate 2147483648 (0 : ℕ) from rfl, List.length_replicate]
        rfl
      · decide
      · decide
      · decide
    · refine ⟨mkChunk 4294967295 1 2147483648 1 cexProfile3 0 1, rfl, ?_⟩
      unfold chunkGeom
      refine ⟨rfl, rfl, rfl, rfl, rfl, ?_, ?_, ?_, ?_⟩
      · rw [show (mkChunk 4294967295 1 2147483648 1 cexProfile3 0 1).dem =
            List.replicate 2147483648 (0 : ℕ) from rfl, List.length_replicate]
        rfl
      · decide
      · decide
      · decide

/-- C3 (counterexample): with `total_width = 2^32 - 1` and
`chunk_width = 2^31`, ingestion succeeds (every per-pixel write stays in
bounds), but for the chunk at tile index `(1, 0)` the `u32` computation
`((x + 1) * chunk_width).min(width)` wrapped to `0`, so its `width_range`
is `2147483648..0` and its width is `2147483648` rather than the
`min((tx + 1) * cw, W) - tx * cw = 2147483647` required by the claimed
layout. -/
theorem c3_overflow_cex :
    ∃ cs, Dem.load_chunks_from_image cexImg3 2147483648 1 cexProfile3 = some cs ∧
      ∃ c, cs.get? 1 = some c ∧ c.width = 2147483648 ∧
        c.width ≠ min ((1 + 1) * 2147483648) 4294967295 - 1 * 2147483648 := by
  obtain ⟨cs, hcs, hinv⟩ := foldlM_option_inv
    (chunksInv 4294967295 1 2147483648 1 cexProfile3)
    (writePixel 2147483648 1 (divCeil 4294967295 2147483648) cexImg3.pix)
    (pixelList 4294967295 1)
    (initChunks 4294967295 1 2147483648 1 cexProfile3)
    cexChunksInv3
    (fun s p hs hp => by
      obtain ⟨hp1, hp2⟩ := pixelList_mem _ _ p hp
      obtain ⟨cs', h1, h2⟩ := writePixel_preserves 4294967295 1 2147483648 1
        cexProfile3 cexImg3.pix (by norm_num) (by norm_num) (by decide)
        s p.1 p.2 hp1 hp2 hs
      exact ⟨cs', by rw [← h1], h2⟩)
  refine ⟨cs, ?_, ?_⟩
  · unfold Dem.load_chunks_from_image
    rw [if_pos ⟨rfl, rfl⟩, if_neg (by omega)]
    exact hcs
  · obtain ⟨hlen, hk⟩ := hinv
    obtain ⟨c, hc, g⟩ := hk 1 (by decide)
    obtain ⟨g1, g2, g3, g4, g5, g6, g7, g8, g9⟩ := g
    have hw : c.width = 2147483648 := by
      unfold Dem.width
      rw [g2, g1]
      rfl
    refine ⟨c, hc, hw, ?_⟩
    rw [hw]
    decide
